import Mathlib

/-!
Verification development for the OSTree-commit → tar serializer
(src/lib/src/tar/export.rs) and its detached-metadata reinjector.

The Rust code is shallowly embedded: paths are UTF-8 strings manipulated
through a component model mirroring camino / std::path (components split on
the separator, a leading slash is a root component, a leading "." is a
current-directory component, empty and interior "." pieces are dropped);
tar output is a list of entries built by pure state-passing over a writer
record; fallible operations return Except String.  The repository, SHA-256
and the chunking planner are external collaborators, modelled as record
fields of a Repo value.
-/

set_option maxRecDepth 4000

namespace OstreeTar

/-! ### String helpers (character-level, matching byte-level Rust on ASCII) -/

/-- First two characters of a string; models Rust str::split_at(2).fst
for the ASCII checksum strings used here. -/
def strTake2 (s : String) : String := ⟨s.data.take 2⟩

/-- Everything after the first two characters; models split_at(2).snd. -/
def strDrop2 (s : String) : String := ⟨s.data.drop 2⟩

/-- Models Rust str::starts_with on a literal (character-level). -/
def strStartsWith (s pre : String) : Bool := pre.data.isPrefixOf s.data

/-- Models Rust str::ends_with on a literal (character-level). -/
def strEndsWith (s suf : String) : Bool := suf.data.isSuffixOf s.data

/-- Models Rust str::contains("//"): two consecutive slashes somewhere. -/
def containsDoubleSlash : List Char → Bool
  | [] => false
  | [_] => false
  | a :: b :: rest => (a = '/' && b = '/') || containsDoubleSlash (b :: rest)

/-! ### Path components, mirroring std::path / camino semantics -/

inductive Component where
  | curDir : Component
  | rootDir : Component
  | normal : String → Component
deriving DecidableEq, Repr

/-- Split a character list on the slash separator (pieces keep no slash). -/
def splitSlash : List Char → List (List Char)
  | [] => [[]]
  | c :: rest =>
    match splitSlash rest with
    | [] => [[]]
    | p :: ps => if c = '/' then [] :: p :: ps else (c :: p) :: ps

/-- Parse a path string into its components, following std::path:
a leading slash gives a root component, a leading "." (only at the very
front of a relative path) a current-directory component; empty pieces and
interior "." pieces vanish. -/
def parseComponents (s : String) : List Component :=
  let pieces := (splitSlash s.data).filter (fun p => p ≠ [] ∧ p ≠ ['.'])
  let root : List Component := if strStartsWith s "/" then [.rootDir] else []
  let cur : List Component :=
    if strStartsWith s "/" then []
    else if s = "." ∨ strStartsWith s "./" then [.curDir] else []
  root ++ cur ++ pieces.map (fun p => .normal ⟨p⟩)

def componentPiece : Component → String
  | .curDir => "."
  | .rootDir => ""
  | .normal s => s

/-- Join component pieces with slashes. -/
def renderRel : List Component → String
  | [] => ""
  | [c] => componentPiece c
  | c :: rest => componentPiece c ++ "/" ++ renderRel rest

/-- Render a component list back to a path string (used for the remainder
returned by a component-wise strip; remainders here consist of normal
components, so this matches the slice Rust would return). -/
def renderComponents (cs : List Component) : String :=
  match cs with
  | .rootDir :: rest => "/" ++ renderRel rest
  | cs => renderRel cs

/-- Component-wise prefix test; models Utf8Path::starts_with. -/
def pathStartsWith (p q : String) : Bool :=
  (parseComponents q).isPrefixOf (parseComponents p)

/-- Component-wise prefix removal; models Utf8Path::strip_prefix (an Err
result becomes none). -/
def pathStrip (q p : String) : Option String :=
  if pathStartsWith p q then
    some (renderComponents ((parseComponents p).drop (parseComponents q).length))
  else none

/-- Models Utf8Path::join / PathBuf::push at the string level: an absolute
right side replaces, otherwise a separator is inserted unless one is
already present. -/
def pathJoin (a b : String) : String :=
  if strStartsWith b "/" then b
  else if a = "" then b
  else if strEndsWith a "/" then a ++ b
  else a ++ "/" ++ b

/-! ### The pure path functions of the source -/

def SYSROOT : String := "sysroot"

def OSTREEDIR : String := "sysroot/ostree"

def TAR_PATH_PREFIX_V0 : String := "./"

/-- Source map_path: convert ./usr/etc back to ./etc (used in v0). -/
def map_path (p : String) : String :=
  match pathStrip "./usr/etc" p with
  | some r => pathJoin "./etc" r
  | none => p

/-- Source map_path_v1: convert usr/etc back to etc (used in v1).  The Rust
function unwraps the strip of the "usr/" prefix; none models that panic. -/
def map_path_v1 (p : String) : Option String :=
  if pathStartsWith p "usr/etc" then pathStrip "usr/" p
  else some p

/-- Source path_for_tar_v1: chunked (v1) streams have no leading "./"; a
leading root component is stripped before mapping. -/
def path_for_tar_v1 (p : String) : Option String :=
  map_path_v1 ((pathStrip "/" p).getD p)

/-- Source symlink_is_denormal: a target containing "//". -/
def symlink_is_denormal (target : String) : Bool :=
  containsDoubleSlash target.data

/-! ### Hex encoding (hex::encode and the {:02x} format) -/

def hexDigit (n : Nat) : Char :=
  if n < 10 then Char.ofNat (48 + n) else Char.ofNat (87 + n)

/-- Two lowercase hex digits; models format!("{:02x}", d) for d < 256. -/
def toHex2 (n : Nat) : String := ⟨[hexDigit (n / 16 % 16), hexDigit (n % 16)]⟩

/-- Lowercase hex of a byte list; models hex::encode. -/
def hexEncode (bytes : List Nat) : String :=
  ⟨bytes.flatMap (fun b => [hexDigit (b / 16 % 16), hexDigit (b % 16)])⟩

/-! ### Object paths -/

inductive ObjectType where
  | Commit | CommitMeta | DirTree | DirMeta | File
deriving DecidableEq, Repr

def objtypeSuffix : ObjectType → String
  | .Commit => "commit"
  | .CommitMeta => "commitmeta"
  | .DirTree => "dirtree"
  | .DirMeta => "dirmeta"
  | .File => "file"

/-- Source object_path: sysroot/ostree/repo/objects/XX/REST.suffix. -/
def object_path (objtype : ObjectType) (checksum : String) : String :=
  OSTREEDIR ++ "/repo/objects/" ++ strTake2 checksum ++ "/" ++ strDrop2 checksum
    ++ "." ++ objtypeSuffix objtype

def v0_xattrs_path (checksum : String) : String :=
  OSTREEDIR ++ "/repo/xattrs/" ++ checksum

def v0_xattrs_object_path (checksum : String) : String :=
  OSTREEDIR ++ "/repo/objects/" ++ strTake2 checksum ++ "/" ++ strDrop2 checksum
    ++ ".file.xattrs"

def v1_xattrs_object_path (checksum : String) : String :=
  OSTREEDIR ++ "/repo/objects/" ++ strTake2 checksum ++ "/" ++ strDrop2 checksum
    ++ ".file-xattrs"

def v1_xattrs_link_object_path (checksum : String) : String :=
  OSTREEDIR ++ "/repo/objects/" ++ strTake2 checksum ++ "/" ++ strDrop2 checksum
    ++ ".file-xattrs-link"

/-! ### Tar entry model

A tar::Header together with the entry path and the entry body.  Only the
header fields the source sets are modelled; sizes, uids and gids are
naturals (the u64 setters never overflow on the values in play).
linkLiteral records a link name written through set_link_name_literal. -/

inductive EntryType where
  | Regular | Directory | Link | Symlink
deriving DecidableEq, Repr

structure Header where
  entryType : EntryType := .Regular
  uid : Nat := 0
  gid : Nat := 0
  mode : Nat := 0
  size : Nat := 0
  linkName : Option String := none
  linkLiteral : Bool := false
deriving DecidableEq, Repr

/-- tar::Header::new_gnu: a zeroed GNU header. -/
def Header.new_gnu : Header := {}

structure TarEntry where
  header : Header
  path : String
  data : List Nat
deriving DecidableEq, Repr

/-- Default regular-data entry (tar_append_default_data): root/root 0644. -/
def defaultDataEntry (path : String) (buf : List Nat) : TarEntry :=
  ⟨{ Header.new_gnu with
     entryType := .Regular
     uid := 0
     gid := 0
     mode := 0o644
     size := buf.length }, path, buf⟩

/-- Default directory entry (append_default_dir): root/root 0755. -/
def defaultDirEntry (path : String) : TarEntry :=
  ⟨{ Header.new_gnu with
     entryType := .Directory
     uid := 0
     gid := 0
     mode := 0o755
     size := 0 }, path, []⟩

/-- Default hardlink entry (append_default_hardlink): root/root 0644. -/
def defaultHardlinkEntry (path linkTarget : String) : TarEntry :=
  ⟨{ Header.new_gnu with
     entryType := .Link
     uid := 0
     gid := 0
     mode := 0o644
     size := 0
     linkName := some linkTarget }, path, []⟩

/-! ### External collaborators: the repository -/

inductive FileType where
  | Regular | SymbolicLink | Other
deriving DecidableEq, Repr

/-- The gio::FileInfo data read by append_content. -/
structure FileInfo where
  uid : Nat
  gid : Nat
  mode : Nat
  size : Nat
  fileType : FileType
  symlinkTarget : Option String
deriving DecidableEq, Repr

/-- A commit variant: the root dirtree checksum (commit field 6), the root
dirmeta checksum (field 7) — both raw digest bytes, hex-encoded on use —
and the serialized bytes of the whole variant. -/
structure CommitObj where
  contents_csum : List Nat
  metadata_csum : List Nat
  data : List Nat
deriving DecidableEq, Repr

/-- A dirtree variant: (name, content checksum bytes) files and
(name, child dirtree checksum bytes, child dirmeta checksum bytes)
subdirectories, plus the serialized bytes. -/
structure DirTreeObj where
  files : List (String × List Nat)
  dirs : List (String × List Nat × List Nat)
  data : List Nat
deriving DecidableEq, Repr

/-- A dirmeta variant, already parsed (DirMetaParsed), plus its bytes. -/
structure DirMetaObj where
  uid : Nat
  gid : Nat
  mode : Nat
  data : List Nat
deriving DecidableEq, Repr

/-- The ostree repository interface consumed by the exporter, plus the
SHA-256 hash (openssl) as an abstract digest function.  Lookups are keyed
by lowercase-hex checksum strings.  load_file returns the
(stream, file-info, xattrs) triple of optionals. -/
structure Repo where
  load_commit : String → Option CommitObj
  load_variant_dirtree : String → Option DirTreeObj
  load_variant_dirmeta : String → Option DirMetaObj
  load_variant_raw : ObjectType → String → Option (List Nat)
  load_file : String → Option (List Nat) × Option FileInfo × Option (List Nat)
  read_commit_detached_metadata : String → Option (List Nat)
  require_rev : String → Option String
  sha256 : List Nat → List Nat

/-! ### The writer -/

structure ExportOptions where
  format_version : Nat
deriving DecidableEq, Repr

/-- derive(Default) on ExportOptions gives format_version = 0. -/
def ExportOptions.default : ExportOptions := ⟨0⟩

/-- The set of allowed format versions, 0..=1 (FORMAT_VERSIONS). -/
def formatVersionAllowed (v : Nat) : Bool := v ≤ 1

structure OstreeTarWriter where
  repo : Repo
  commit_checksum : String
  commit_object : CommitObj
  options : ExportOptions
  wrote_initdirs : Bool
  wrote_dirtree : List String
  wrote_dirmeta : List String
  wrote_content : List String
  wrote_xattrs : List String
  out : List TarEntry

/-- Push one entry onto the output stream (tar::Builder::append_data or
append_link; the builder only ever appends). -/
def appendEntry (w : OstreeTarWriter) (e : TarEntry) : OstreeTarWriter :=
  { w with out := w.out ++ [e] }

def ofOption {α : Type} (x : Option α) (msg : String) : Except String α :=
  match x with
  | some a => .ok a
  | none => .error msg

/-- OstreeTarWriter::new: validates the format version and loads the
commit variant. -/
def OstreeTarWriter.new (repo : Repo) (commit_checksum : String)
    (options : ExportOptions) : Except String OstreeTarWriter :=
  if formatVersionAllowed options.format_version then
    match repo.load_commit commit_checksum with
    | none => .error ("No such commit " ++ commit_checksum)
    | some commit_object =>
      .ok { repo, commit_checksum, commit_object, options,
            wrote_initdirs := false, wrote_dirtree := [], wrote_dirmeta := [],
            wrote_content := [], wrote_xattrs := [], out := [] }
  else .error "unsupported format version"

/-- filter_mode: v0 keeps the ostree mode word verbatim (including the
format bits); later versions clear the S_IFMT bits (0o170000). -/
def filter_mode (w : OstreeTarWriter) (mode : Nat) : Nat :=
  if w.options.format_version = 0 then mode
  else mode &&& 0xFFFF0FFF

def append_default_dir (w : OstreeTarWriter) (path : String) : OstreeTarWriter :=
  appendEntry w (defaultDirEntry path)

def append_default_data (w : OstreeTarWriter) (path : String) (buf : List Nat) :
    OstreeTarWriter :=
  appendEntry w (defaultDataEntry path buf)

def append_default_hardlink (w : OstreeTarWriter) (path linkTarget : String) :
    OstreeTarWriter :=
  appendEntry w (defaultHardlinkEntry path linkTarget)

/-! ### The repository scaffold (write_repo_structure) -/

/-- The REPO_CONFIG literal of the source. -/
def REPO_CONFIG : String := "[core]\nrepo_version=1\nmode=bare-split-xattrs\n"

def REPO_CONFIG_BYTES : List Nat := REPO_CONFIG.toUTF8.toList.map (fun b => b.toNat)

/-- Utf8Path::ancestors: the path followed by each successive parent. -/
def pathAncestors (p : String) : List String :=
  p :: (List.range (parseComponents p).length).map
    (fun i => renderComponents ((parseComponents p).take ((parseComponents p).length - 1 - i)))

def objdir : String := OSTREEDIR ++ "/repo/objects"

def repoSubdirs : List String :=
  ["extensions", "refs", "refs/heads", "refs/mirrors", "refs/remotes",
   "state", "tmp", "tmp/cache"]

/-- The directory paths the scaffold emits, in emission order: the object
directory ancestors (skipping the root and empty ancestors), the 256 object
shard directories, the standard repo subdirectories, and in v0 the special
repo/xattrs directory. -/
def scaffoldDirPaths (v : Nat) : List String :=
  (pathAncestors objdir).reverse.filter (fun p => !(p == "/" || p == "")) ++
    (List.range 256).map (fun d => objdir ++ "/" ++ toHex2 d) ++
    repoSubdirs.map (fun d => OSTREEDIR ++ "/repo/" ++ d) ++
    (if v = 0 then [OSTREEDIR ++ "/repo/xattrs"] else [])

/-- The repo config file path per format version. -/
def configPath (v : Nat) : String :=
  if v = 0 then SYSROOT ++ "/config" else OSTREEDIR ++ "/repo/config"

/-- write_repo_structure: the initial sysroot/ostree/repo scaffold; a no-op
once wrote_initdirs is set.  The source's four directory loops are the one
fold over scaffoldDirPaths. -/
def write_repo_structure (w : OstreeTarWriter) : Except String OstreeTarWriter :=
  if w.wrote_initdirs then .ok w
  else
    let w := (scaffoldDirPaths w.options.format_version).foldl append_default_dir w
    match w.options.format_version with
    | 0 => .ok { append_default_data w (configPath 0) REPO_CONFIG_BYTES with
                 wrote_initdirs := true }
    | 1 => .ok { append_default_data w (configPath 1) REPO_CONFIG_BYTES with
                 wrote_initdirs := true }
    | _ => .error "Unsupported ostree tar format version"

/-! ### Object and xattr emission -/

/-- Writer method append: metadata objects as default-data entries at their
object path; DirTree and DirMeta are deduplicated by their sets, Commit and
CommitMeta are not; a File object type would panic in the source. -/
def append (w : OstreeTarWriter) (objtype : ObjectType) (checksum : String)
    (data : List Nat) : Except String OstreeTarWriter :=
  match objtype with
  | .Commit => .ok (append_default_data w (object_path .Commit checksum) data)
  | .CommitMeta => .ok (append_default_data w (object_path .CommitMeta checksum) data)
  | .DirTree =>
    if checksum ∈ w.wrote_dirtree then .ok w
    else .ok (append_default_data
      { w with wrote_dirtree := checksum :: w.wrote_dirtree }
      (object_path .DirTree checksum) data)
  | .DirMeta =>
    if checksum ∈ w.wrote_dirmeta then .ok w
    else .ok (append_default_data
      { w with wrote_dirmeta := checksum :: w.wrote_dirmeta }
      (object_path .DirMeta checksum) data)
  | .File => .error "panic: Unexpected object type"

/-- append_commit_object: the commit object, then the CommitMeta object
when detached metadata exists. -/
def append_commit_object (w : OstreeTarWriter) : Except String OstreeTarWriter := do
  let w ← append w .Commit w.commit_checksum w.commit_object.data
  match w.repo.read_commit_detached_metadata w.commit_checksum with
  | some commitmeta => append w .CommitMeta w.commit_checksum commitmeta
  | none => .ok w

/-- append_xattrs: skip empty blobs in v0; emit the blob once (deduplicated
by its SHA-256 hex) and a hardlink from the per-object xattr path to it.
Returns whether content was written. -/
def append_xattrs (w : OstreeTarWriter) (checksum : String) (xattrs : List Nat) :
    Except String (OstreeTarWriter × Bool) :=
  if xattrs.isEmpty ∧ w.options.format_version = 0 then .ok (w, false)
  else
    let xattrs_checksum := hexEncode (w.repo.sha256 xattrs)
    if w.options.format_version = 0 then
      let path := v0_xattrs_path xattrs_checksum
      let w := if xattrs_checksum ∈ w.wrote_xattrs then w
        else append_default_data
          { w with wrote_xattrs := xattrs_checksum :: w.wrote_xattrs } path xattrs
      .ok (append_default_hardlink w (v0_xattrs_object_path checksum) path, true)
    else if w.options.format_version = 1 then
      let path := v1_xattrs_object_path xattrs_checksum
      let w := if xattrs_checksum ∈ w.wrote_xattrs then w
        else append_default_data
          { w with wrote_xattrs := xattrs_checksum :: w.wrote_xattrs } path xattrs
      .ok (append_default_hardlink w (v1_xattrs_link_object_path checksum) path, true)
    else .error ("Unknown format version")

/-- append_content: load the content object, build the header from its
metadata, and unless deduplicated emit its xattrs followed by the object
itself (regular body or symlink).  Returns the object path and a size-0
header template for later hardlinking. -/
def append_content (w : OstreeTarWriter) (checksum : String) :
    Except String (OstreeTarWriter × String × Header) :=
  let path := object_path .File checksum
  match w.repo.load_file checksum with
  | (instream, meta?, xattrs?) =>
    match meta? with
    | none => .error ("Missing metadata for object " ++ checksum)
    | some meta =>
      match xattrs? with
      | none => .error ("Missing xattrs for object " ++ checksum)
      | some xattrs =>
        let h : Header := { Header.new_gnu with
                            uid := meta.uid
                            gid := meta.gid
                            mode := filter_mode w meta.mode }
        let target_header : Header := { h with size := 0 }
        if checksum ∈ w.wrote_content then .ok (w, path, target_header)
        else do
          let w := { w with wrote_content := checksum :: w.wrote_content }
          let (w, _) ← append_xattrs w checksum xattrs
          match instream with
          | some body =>
            if meta.fileType = .Regular then
              .ok (appendEntry w
                ⟨{ h with
                   entryType := .Regular
                   size := meta.size }, path, body⟩,
                path, target_header)
            else .error "file type mismatch: expected regular"
          | none =>
            if meta.fileType = .SymbolicLink then
              match meta.symlinkTarget with
              | none => .error "Missing symlink target"
              | some target =>
                if symlink_is_denormal target then
                  .ok (appendEntry w
                    ⟨{ h with
                       entryType := .Symlink
                       size := 0
                       linkName := some target
                       linkLiteral := true }, path, []⟩,
                    path, target_header)
                else
                  .ok (appendEntry w
                    ⟨{ h with
                       entryType := .Symlink
                       size := 0
                       linkName := some target }, path, []⟩,
                    path, target_header)
            else .error "file type mismatch: expected symlink"

/-- append_dir: a directory entry carrying the dirmeta owner and mode. -/
def append_dir (w : OstreeTarWriter) (dirpath : String) (meta : DirMetaObj) :
    OstreeTarWriter :=
  appendEntry w ⟨{ Header.new_gnu with
    entryType := .Directory
    size := 0
    uid := meta.uid
    gid := meta.gid
    mode := filter_mode w meta.mode }, dirpath, []⟩

/-- append_content_hardlink: hardlink a previously written object into its
rendered path, reusing the caller-supplied header. -/
def append_content_hardlink (w : OstreeTarWriter) (srcpath : String) (h : Header)
    (dest : String) : OstreeTarWriter :=
  appendEntry w ⟨{ h with entryType := .Link, linkName := some srcpath }, dest, []⟩

/-! ### The commit walker (append_dirtree, write_commit)

The dirtree recursion is fuelled: fuel 0 models a walk that does not
terminate (a cyclic dirtree graph would loop in the source).  The
cancellable passed by write_commit is gio::NONE_CANCELLABLE, so the
cooperative cancellation checks are identity and are not modelled. -/

/-- The files loop of append_dirtree: emit each content object and a
hardlink at its rendered (v0-mapped) path. -/
def append_dirtree_files (w : OstreeTarWriter) (dirpath : String) :
    List (String × List Nat) → Except String OstreeTarWriter
  | [] => .ok w
  | (name, csum) :: rest => do
    let checksum := hexEncode csum
    let (w, objpath, h) ← append_content w checksum
    let subpath := map_path (pathJoin dirpath name)
    append_dirtree_files (append_content_hardlink w objpath h subpath) dirpath rest

/-- The subdirectory loop of append_dirtree, parametrised by the walk at
the remaining fuel (the source recurses into append_dirtree with
is_root = false and the same fuel as the loop). -/
def walk_dirs (step : OstreeTarWriter → String → String →
    Except String OstreeTarWriter) (w : OstreeTarWriter) (dirpath : String) :
    List (String × List Nat × List Nat) → Bool → Except String OstreeTarWriter
  | [], _ => .ok w
  | (name, contents_csum, meta_csum) :: rest, is_root => do
    let meta_checksum := hexEncode meta_csum
    let meta_v ← ofOption (w.repo.load_variant_dirmeta meta_checksum)
      ("No such metadata object dirmeta." ++ meta_checksum)
    let w ← append w .DirMeta meta_checksum meta_v.data
    if is_root ∧ name = SYSROOT then
      walk_dirs step w dirpath rest is_root
    else
      let dirtree_csum := hexEncode contents_csum
      let subpath := map_path (pathJoin dirpath name)
      let w := append_dir w subpath meta_v
      let w ← step w subpath dirtree_csum
      walk_dirs step w dirpath rest is_root

/-- append_dirtree: emit the dirtree object (deduplicated), then its files
(objects plus hardlinks), then its subdirectories (dirmeta object,
directory entry, recursion), skipping a root-level "sysroot" subdir. -/
def append_dirtree (w : OstreeTarWriter) (dirpath : String) (checksum : String)
    (is_root : Bool) : Nat → Except String OstreeTarWriter
  | 0 => .error "recursion limit"
  | fuel + 1 => do
    let v ← ofOption (w.repo.load_variant_dirtree checksum)
      ("No such metadata object dirtree." ++ checksum)
    let w ← append w .DirTree checksum v.data
    let w ← append_dirtree_files w dirpath v.files
    walk_dirs (fun w p c => append_dirtree w p c false fuel) w dirpath
      v.dirs is_root

/-- The subdirectory loop of append_dirtree at a given fuel. -/
def append_dirtree_dirs (w : OstreeTarWriter) (dirpath : String)
    (ds : List (String × List Nat × List Nat)) (is_root : Bool) (fuel : Nat) :
    Except String OstreeTarWriter :=
  walk_dirs (fun w p c => append_dirtree w p c false fuel) w dirpath ds is_root


/-- write_commit: root directory entry, scaffold, commit (and CommitMeta),
root dirmeta object, then the recursive walk from the root dirtree. -/
def write_commit (w : OstreeTarWriter) (fuel : Nat) : Except String OstreeTarWriter := do
  let contents := hexEncode w.commit_object.contents_csum
  let metadata_checksum := hexEncode w.commit_object.metadata_csum
  let metadata_v ← ofOption (w.repo.load_variant_dirmeta metadata_checksum)
    ("No such metadata object dirmeta." ++ metadata_checksum)
  let w := append_dir w TAR_PATH_PREFIX_V0 metadata_v
  let w ← write_repo_structure w
  let w ← append_commit_object w
  let w ← append w .DirMeta metadata_checksum metadata_v.data
  append_dirtree w TAR_PATH_PREFIX_V0 contents true fuel

/-! ### Export drivers -/

/-- impl_export: build the writer and run write_commit; the result is the
entry stream handed to the tar builder. -/
def impl_export (repo : Repo) (commit_checksum : String) (options : ExportOptions)
    (fuel : Nat) : Except String (List TarEntry) := do
  let w ← OstreeTarWriter.new repo commit_checksum options
  let w ← write_commit w fuel
  .ok w.out

/-- export_commit: resolve the rev and export; absent options default to
ExportOptions::default() (format version 0). -/
def export_commit (repo : Repo) (rev : String) (options : Option ExportOptions)
    (fuel : Nat) : Except String (List TarEntry) := do
  let commit ← ofOption (repo.require_rev rev) ("No such ref " ++ rev)
  impl_export repo commit (options.getD ExportOptions.default) fuel

/-- A chunk: an ordered mapping content-checksum → (size, rendered paths);
produced by the external chunking planner. -/
def ChunkMapping : Type := List (String × Nat × List String)

/-- One metadata inventory line of a chunking. -/
structure MetaEntry where
  objtype : ObjectType
  checksum : String
deriving DecidableEq, Repr

/-- A chunking: the metadata inventory plus the residual content chunk. -/
structure Chunking where
  meta : List MetaEntry
  remainder : ChunkMapping

/-- The per-checksum path loop of write_chunk. -/
def write_chunk_paths (w : OstreeTarWriter) (objpath : String) (h : Header) :
    List String → Except String OstreeTarWriter
  | [] => .ok w
  | p :: ps => do
    let p1 ← ofOption (path_for_tar_v1 p) "panic: path mapping precondition"
    write_chunk_paths (append_content_hardlink w objpath h p1) objpath h ps

/-- write_chunk: emit each content object once and one hardlink per
rendered path (v1 mapping). -/
def write_chunk (w : OstreeTarWriter) :
    ChunkMapping → Except String OstreeTarWriter
  | ([] : List (String × Nat × List String)) => .ok w
  | (checksum, _size, paths) :: rest => do
    let (w, objpath, h) ← append_content w checksum
    let w ← write_chunk_paths w objpath h paths
    write_chunk w rest

/-- export_chunk: scaffold plus one chunk.  Note the writer is built with
ExportOptions::default(), i.e. format version 0. -/
def export_chunk (repo : Repo) (commit : String) (chunk : ChunkMapping) :
    Except String (List TarEntry) := do
  let w ← OstreeTarWriter.new repo commit ExportOptions.default
  let w ← write_repo_structure w
  let w ← write_chunk w chunk
  .ok w.out

/-- The metadata inventory loop of export_final_chunk. -/
def export_meta_objects (w : OstreeTarWriter) :
    List MetaEntry → Except String OstreeTarWriter
  | [] => .ok w
  | m :: rest => do
    let v ← ofOption (w.repo.load_variant_raw m.objtype m.checksum)
      ("No such metadata object " ++ m.checksum)
    let w ← append w m.objtype m.checksum v
    export_meta_objects w rest

/-- export_final_chunk: scaffold, commit object (and CommitMeta), the
caller-supplied metadata inventory, then the residual content chunk; the
writer is built with format version 1. -/
def export_final_chunk (repo : Repo) (commit_checksum : String)
    (chunking : Chunking) : Except String (List TarEntry) := do
  let w ← OstreeTarWriter.new repo commit_checksum ⟨1⟩
  let w ← write_repo_structure w
  let w ← append_commit_object w
  let w ← export_meta_objects w chunking.meta
  let w ← write_chunk w chunking.remainder
  .ok w.out

/-! ### The metadata reinjector -/

/-- Modelled from the spec: Importer::parse_metadata_entry lives in the
tar-import module, which is not part of the given sources.  Per the spec
(sections 4.2 and 4.9) a metadata entry is identified by parsing its path
as a canonical object path sysroot/ostree/repo/objects/XX/REST.suffix with
a two-hex-character shard, a sixty-two-character rest and a suffix from
the object-type table; the checksum is the shard concatenated with the
rest.  Any other path is an error. -/
def parse_metadata_entry (path : String) : Except String (String × ObjectType) :=
  match pathStrip "sysroot/ostree/repo/objects" path with
  | none => .error ("Invalid object path " ++ path)
  | some rest =>
    match (splitSlash rest.data).filter (fun p => p ≠ []) with
    | [shard, name] =>
      match name.splitOn '.' with
      | stem :: sufHead :: sufRest =>
        let suffix : String := String.intercalate "." ((⟨sufHead⟩ : String) ::
          sufRest.map (fun p => (⟨p⟩ : String)))
        let objtype? : Option ObjectType :=
          if suffix = "commit" then some .Commit
          else if suffix = "commitmeta" then some .CommitMeta
          else if suffix = "dirtree" then some .DirTree
          else if suffix = "dirmeta" then some .DirMeta
          else if suffix = "file" then some .File
          else none
        match objtype? with
        | some t =>
          if shard.length = 2 ∧ stem.length = 62 then
            .ok (⟨shard ++ stem⟩, t)
          else .error ("Invalid checksum " ++ path)
        | none => .error ("Invalid object suffix " ++ path)
      | _ => .error ("Invalid object filename " ++ path)
    | _ => .error ("Invalid object path " ++ path)

/-- The first copy loop of reinject_detached_metadata: entries before the
commit entry, and the commit entry with its tail when found. -/
def reinject_find_commit : List TarEntry →
    List TarEntry × Option (TarEntry × List TarEntry)
  | [] => ([], none)
  | e :: rest =>
    if e.header.entryType = .Regular ∧ strEndsWith e.path ".commit" then
      ([], some (e, rest))
    else
      let (pre, r) := reinject_find_commit rest
      (e :: pre, r)

/-- reinject_detached_metadata: copy up to and including the commit entry,
optionally emit a replacement CommitMeta entry, drop the next entry when
path parsing identifies it as CommitMeta (copy it otherwise), then copy
the rest.  copy_entry (tar::write, outside the given sources) copies an
entry unchanged.  The cancellable is not modelled (polling is identity). -/
def reinject_detached_metadata (src : List TarEntry)
    (detached_buf : Option (List Nat)) : Except String (List TarEntry) := do
  let (copied, found) := reinject_find_commit src
  let (commit_ent, rest) ← ofOption found "Missing commit object"
  let (checksum, objtype) ← parse_metadata_entry commit_ent.path
  if objtype = .Commit then
    let dest := copied ++ [commit_ent]
    let dest := match detached_buf with
      | some buf => dest ++ [defaultDataEntry (object_path .CommitMeta checksum) buf]
      | none => dest
    match rest with
    | [] => .error "Expected metadata object after commit"
    | next_ent :: rest1 => do
      let (_, objtype2) ← parse_metadata_entry next_ent.path
      let dest := if objtype2 ≠ .CommitMeta then dest ++ [next_ent] else dest
      .ok (dest ++ rest1)
  else .error "panic: assertion failed, objtype is Commit"

/-- update_detached_metadata: the public wrapper around the reinjector. -/
def update_detached_metadata (src : List TarEntry)
    (detached_buf : Option (List Nat)) : Except String (List TarEntry) :=
  reinject_detached_metadata src detached_buf

/-! ### A concrete sample repository and sample streams -/

/-- Sample commit object: root dirtree digest 0xd7, root dirmeta 0xe5. -/
def tCommit : CommitObj := ⟨[0xd7], [0xe5], [0xc0]⟩

/-- Sample root dirtree: one regular file "a" with content digest 0xaa. -/
def tTree : DirTreeObj := ⟨[("a", [0xaa])], [], [0xd0]⟩

/-- Sample dirmeta: root-owned 0o40755 directory. -/
def tMeta : DirMetaObj := ⟨0, 0, 0o40755, [0xe0]⟩

/-- Sample repository with commit "c0" reachable from ref "r"; the file
object "aa" is a regular file owned by uid/gid 42 with xattrs blob [7]. -/
def tRepo : Repo where
  load_commit := fun c => if c = "c0" then some tCommit else none
  load_variant_dirtree := fun c => if c = "d7" then some tTree else none
  load_variant_dirmeta := fun c => if c = "e5" then some tMeta else none
  load_variant_raw := fun t c =>
    if t = ObjectType.Commit ∧ c = "c0" then some [0xc0] else none
  load_file := fun c =>
    if c = "aa" then
      (some [1, 2, 3], some ⟨42, 42, 0o100644, 3, .Regular, none⟩, some [7])
    else (none, none, none)
  read_commit_detached_metadata := fun _ => none
  require_rev := fun r => if r = "r" then some "c0" else none
  sha256 := fun l => l.map (fun b => b + 1)

/-- The sample full-export stream in format version 1. -/
def tOutV1 : List TarEntry :=
  (export_commit tRepo "r" (some ⟨1⟩) 9).toOption.getD []

/-- The sample full-export stream with absent options (format version 0). -/
def tOutV0 : List TarEntry :=
  (export_commit tRepo "r" none 9).toOption.getD []

/-- The sample single-chunk stream (empty chunk). -/
def tOutChunk : List TarEntry :=
  (export_chunk tRepo "c0" []).toOption.getD []

/-- The sample final-chunk stream: an adversarial inventory that lists the
Commit object itself. -/
def tOutFinalDup : List TarEntry :=
  (export_final_chunk tRepo "c0" ⟨[⟨.Commit, "c0"⟩], []⟩).toOption.getD []

/-- The sample final-chunk stream with an empty inventory. -/
def tOutFinal : List TarEntry :=
  (export_final_chunk tRepo "c0" ⟨[], []⟩).toOption.getD []

/-- A 64-hex-character sample checksum for reinjection inputs. -/
def c5sum : String := ⟨List.replicate 64 'a'⟩

/-- A commit entry at its canonical metadata path. -/
def c5commitEntry : TarEntry := defaultDataEntry (object_path .Commit c5sum) [1]

/-- An entry whose path is no metadata object path at all. -/
def c5junkEntry : TarEntry := defaultDataEntry "foo" [2]

/-- A CommitMeta entry at its canonical metadata path. -/
def c5metaEntry : TarEntry :=
  defaultDataEntry (object_path .CommitMeta c5sum) [3]

/-- A DirTree entry at its canonical metadata path. -/
def c5treeEntry : TarEntry := defaultDataEntry (object_path .DirTree c5sum) [4]

/-- The reinjector's output head: copied prefix, commit entry, and the
replacement CommitMeta entry when a buffer is supplied. -/
def reinjectDest (pre : List TarEntry) (ce : TarEntry)
    (buf : Option (List Nat)) (cs : String) : List TarEntry :=
  match buf with
  | some b => pre ++ [ce] ++ [defaultDataEntry (object_path .CommitMeta cs) b]
  | none => pre ++ [ce]

/-- A fresh sample writer over the sample repository, format version 1. -/
def tW0 : OstreeTarWriter where
  repo := tRepo
  commit_checksum := "c0"
  commit_object := tCommit
  options := ⟨1⟩
  wrote_initdirs := false
  wrote_dirtree := []
  wrote_dirmeta := []
  wrote_content := []
  wrote_xattrs := []
  out := []

/-- The sample writer after one scaffold invocation. -/
def tW1 : OstreeTarWriter := (write_repo_structure tW0).toOption.getD tW0

/-! ### Path algebra: the canonical in-stream paths are pairwise
distinguishable and injective in their checksum. -/

/-- The literal prefix of every object path. -/
def objPreL : List Char := "sysroot/ostree/repo/objects/".data

/-- The literal prefix of every v0 xattr blob path. -/
def xattrsPreL : List Char := "sysroot/ostree/repo/xattrs/".data

/-- The middle (sharded checksum) part of an object-style path. -/
def midOf (c : String) : List Char := c.data.take 2 ++ '/' :: c.data.drop 2

theorem object_path_data (t : ObjectType) (c : String) :
    (object_path t c).data = objPreL ++ (midOf c ++ '.' :: (objtypeSuffix t).data) := by
  have h1 : ("sysroot/ostree".data ++ "/repo/objects/".data : List Char) = objPreL := by decide
  simp only [object_path, OSTREEDIR, String.data_append, strTake2, strDrop2, midOf, ← h1]
  simp [List.append_assoc]

theorem v1_xattrs_object_path_data (c : String) :
    (v1_xattrs_object_path c).data = objPreL ++ (midOf c ++ '.' :: "file-xattrs".data) := by
  have h1 : ("sysroot/ostree".data ++ "/repo/objects/".data : List Char) = objPreL := by decide
  have h2 : (".file-xattrs".data : List Char) = '.' :: "file-xattrs".data := by decide
  simp only [v1_xattrs_object_path, OSTREEDIR, String.data_append, strTake2, strDrop2, midOf,
    ← h1, h2]
  simp [List.append_assoc]

theorem v0_xattrs_path_data (c : String) :
    (v0_xattrs_path c).data = xattrsPreL ++ c.data := by
  have h1 : ("sysroot/ostree".data ++ "/repo/xattrs/".data : List Char) = xattrsPreL := by decide
  simp only [v0_xattrs_path, OSTREEDIR, String.data_append, ← h1]


/-- Splitting at a dot whose left part is dot-free, from the front. -/
theorem dotfree_head_split : ∀ (xs ys as bs : List Char),
    (∀ c ∈ xs, c ≠ '.') → (∀ c ∈ ys, c ≠ '.') →
    xs ++ '.' :: as = ys ++ '.' :: bs → xs = ys ∧ as = bs := by
  intro xs
  induction xs with
  | nil =>
    intro ys as bs _ hy h
    cases ys with
    | nil => simpa using h
    | cons y ys =>
      exfalso
      have : '.' = y := by simpa using congrArg (fun l => l.headD ' ') h
      exact hy y (by simp) this.symm
  | cons x xs ih =>
    intro ys as bs hx hy h
    cases ys with
    | nil =>
      exfalso
      have : x = '.' := by simpa using congrArg (fun l => l.headD ' ') h
      exact hx x (by simp) this
    | cons y ys =>
      simp only [List.cons_append, List.cons.injEq] at h
      obtain ⟨hxy, h⟩ := h
      obtain ⟨h1, h2⟩ := ih ys as bs (fun c hc => hx c (by simp [hc]))
        (fun c hc => hy c (by simp [hc])) h
      exact ⟨by simp [hxy, h1], h2⟩

/-- Splitting at the last dot: the suffixes are dot-free. -/
theorem last_dot_split (a b S T : List Char)
    (hS : ∀ c ∈ S, c ≠ '.') (hT : ∀ c ∈ T, c ≠ '.')
    (h : a ++ '.' :: S = b ++ '.' :: T) : a = b ∧ S = T := by
  have h' := congrArg List.reverse h
  simp only [List.reverse_append, List.reverse_cons] at h'
  have h'' : S.reverse ++ '.' :: a.reverse = T.reverse ++ '.' :: b.reverse := by
    simpa [List.append_assoc] using h'
  obtain ⟨h1, h2⟩ := dotfree_head_split S.reverse T.reverse a.reverse b.reverse
    (fun c hc => hS c (List.mem_reverse.mp hc))
    (fun c hc => hT c (List.mem_reverse.mp hc)) h''
  exact ⟨List.reverse_injective h2, List.reverse_injective h1⟩

/-- The sharded middle determines the checksum. -/
theorem midOf_inj {c c' : String} (h : midOf c = midOf c') : c = c' := by
  unfold midOf at h
  have hlen : c.data.length = c'.data.length := by
    have hl := congrArg List.length h
    simp only [List.length_append, List.length_cons, List.length_take,
      List.length_drop] at hl
    rcases Nat.le_total c.data.length 2 with h2 | h2 <;>
      rcases Nat.le_total c'.data.length 2 with h2' | h2' <;>
      omega
  have htk : (c.data.take 2).length = (c'.data.take 2).length := by
    simp [List.length_take, hlen]
  obtain ⟨h1, h2⟩ := List.append_inj h htk
  have h3 : c.data.drop 2 = c'.data.drop 2 := by
    simpa using congrArg List.tail h2
  apply String.ext
  calc c.data = c.data.take 2 ++ c.data.drop 2 := (List.take_append_drop 2 c.data).symm
    _ = c'.data.take 2 ++ c'.data.drop 2 := by rw [h1, h3]
    _ = c'.data := List.take_append_drop 2 c'.data

theorem objtypeSuffix_dotfree (t : ObjectType) :
    ∀ c ∈ (objtypeSuffix t).data, c ≠ '.' := by
  cases t <;> decide

/-- object_path is injective in the pair (type, checksum). -/
theorem object_path_inj {t t' : ObjectType} {c c' : String}
    (h : object_path t c = object_path t' c') : t = t' ∧ c = c' := by
  have hd := congrArg String.data h
  rw [object_path_data, object_path_data] at hd
  have hd2 := List.append_cancel_left hd
  obtain ⟨hmid, hsuf⟩ := last_dot_split _ _ _ _ (objtypeSuffix_dotfree t)
    (objtypeSuffix_dotfree t') hd2
  refine ⟨?_, midOf_inj hmid⟩
  cases t <;> cases t' <;> first
    | rfl
    | (exfalso; exact absurd hsuf (by decide))

/-- An object path never equals a v1 xattr blob path. -/
theorem object_path_ne_v1_xattrs (t : ObjectType) (c x : String) :
    object_path t c ≠ v1_xattrs_object_path x := by
  intro h
  have hd := congrArg String.data h
  rw [object_path_data, v1_xattrs_object_path_data] at hd
  have hd2 := List.append_cancel_left hd
  obtain ⟨_, hsuf⟩ := last_dot_split _ _ _ _ (objtypeSuffix_dotfree t)
    (by decide) hd2
  cases t <;> exact absurd hsuf (by decide)

/-- v1 xattr blob paths are injective in the blob checksum. -/
theorem v1_xattrs_object_path_inj {x x' : String}
    (h : v1_xattrs_object_path x = v1_xattrs_object_path x') : x = x' := by
  have hd := congrArg String.data h
  rw [v1_xattrs_object_path_data, v1_xattrs_object_path_data] at hd
  have hd2 := List.append_cancel_left hd
  obtain ⟨hmid, _⟩ := last_dot_split _ _ _ _ (by decide) (by decide) hd2
  exact midOf_inj hmid

/-- v0 xattr blob paths are injective in the blob checksum. -/
theorem v0_xattrs_path_inj {x x' : String}
    (h : v0_xattrs_path x = v0_xattrs_path x') : x = x' := by
  have hd := congrArg String.data h
  rw [v0_xattrs_path_data, v0_xattrs_path_data] at hd
  exact String.ext (List.append_cancel_left hd)

theorem ne_of_data_get {s t : String} (i : Nat)
    (h : s.data[i]? ≠ t.data[i]?) : s ≠ t := by
  intro he; exact h (by rw [he])

/-- An object path never equals a v0 xattr blob path. -/
theorem object_path_ne_v0_xattrs (t : ObjectType) (c x : String) :
    object_path t c ≠ v0_xattrs_path x := by
  apply ne_of_data_get 20
  rw [object_path_data, v0_xattrs_path_data]
  rw [List.getElem?_append_left (by decide : 20 < objPreL.length),
    List.getElem?_append_left (by decide : 20 < xattrsPreL.length)]
  decide

/-- The v0 config path differs from every object path. -/
theorem config0_ne_object_path (t : ObjectType) (c : String) :
    SYSROOT ++ "/config" ≠ object_path t c := by
  apply ne_of_data_get 8
  rw [object_path_data]
  rw [List.getElem?_append_left (by decide : 8 < objPreL.length)]
  decide

/-- The v0 config path differs from every v0 xattr blob path. -/
theorem config0_ne_v0_xattrs (x : String) :
    SYSROOT ++ "/config" ≠ v0_xattrs_path x := by
  apply ne_of_data_get 8
  rw [v0_xattrs_path_data]
  rw [List.getElem?_append_left (by decide : 8 < xattrsPreL.length)]
  decide

/-- The v1 config path differs from every object path. -/
theorem config1_ne_object_path (t : ObjectType) (c : String) :
    OSTREEDIR ++ "/repo/config" ≠ object_path t c := by
  apply ne_of_data_get 20
  rw [object_path_data]
  rw [List.getElem?_append_left (by decide : 20 < objPreL.length)]
  decide

/-- The v1 config path differs from every v1 xattr blob path. -/
theorem config1_ne_v1_xattrs (x : String) :
    OSTREEDIR ++ "/repo/config" ≠ v1_xattrs_object_path x := by
  apply ne_of_data_get 20
  rw [v1_xattrs_object_path_data]
  rw [List.getElem?_append_left (by decide : 20 < objPreL.length)]
  decide

/-! ### Emission kinds and counting

An emission of kind (k, c) is a non-link, non-directory entry sitting at
the canonical path of that kind: the five ostree object kinds at their
object paths, and xattr blobs at their version-dependent blob path.
Hardlink and directory entries are excluded by entry type, so hardlink
destinations chosen by a caller cannot masquerade as object emissions. -/

inductive EmitKind where
  | obj : ObjectType → EmitKind
  | xblob : EmitKind
deriving DecidableEq, Repr

def kindPath (v : Nat) : EmitKind → String → String
  | .obj t, c => object_path t c
  | .xblob, c => if v = 0 then v0_xattrs_path c else v1_xattrs_object_path c

def isEmissionB (v : Nat) (k : EmitKind) (c : String) (e : TarEntry) : Bool :=
  e.path == kindPath v k c &&
    (e.header.entryType == .Regular || e.header.entryType == .Symlink)

/-- How many times kind (k, c) is emitted in a stream. -/
def cntK (v : Nat) (k : EmitKind) (c : String) (l : List TarEntry) : Nat :=
  l.countP (isEmissionB v k c)

/-- The version-dependent xattr blob path. -/
def xblobPath (v : Nat) (x : String) : String :=
  if v = 0 then v0_xattrs_path x else v1_xattrs_object_path x

/-- The version-dependent per-object xattr link path. -/
def xlinkPath (v : Nat) (c : String) : String :=
  if v = 0 then v0_xattrs_object_path c else v1_xattrs_link_object_path c

def isBlobB (v : Nat) (x : String) (e : TarEntry) : Bool :=
  e.path == xblobPath v x && e.header.entryType == .Regular

def isLinkB (v : Nat) (c : String) (e : TarEntry) : Bool :=
  e.path == xlinkPath v c && e.header.entryType == .Link

def isFileEmissionB (c : String) (e : TarEntry) : Bool :=
  e.path == object_path .File c &&
    (e.header.entryType == .Regular || e.header.entryType == .Symlink)

/-- The xattrs blob of content object c is due for emission: present, and
non-empty unless the version is 1. -/
def xattrCondB (repo : Repo) (v : Nat) (c : String) : Bool :=
  match (repo.load_file c).2.2 with
  | some x => v == 1 || !x.isEmpty
  | none => false

/-- The hex SHA-256 the writer computes for the xattrs blob of c. -/
def xhOf (repo : Repo) (c : String) : String :=
  hexEncode (repo.sha256 (((repo.load_file c).2.2).getD []))

/-- The xattrs-before-content ordering: wherever a content object whose
xattrs are due sits in the stream, its blob entry and its link entry occur
strictly earlier. -/
def XOrder (v : Nat) (repo : Repo) (l : List TarEntry) : Prop :=
  ∀ l1 e l2 c, l = l1 ++ e :: l2 → isFileEmissionB c e = true →
    xattrCondB repo v c = true →
    (∃ b ∈ l1, isBlobB v (xhOf repo c) b = true) ∧
      (∃ lk ∈ l1, isLinkB v c lk = true)

def fmtv (w : OstreeTarWriter) : Nat := w.options.format_version

/-- The running invariant of an export: each deduplicated kind has been
emitted at most once and exactly when its checksum is in its dedup set,
every recorded xattr blob is present in the stream, and the stream
satisfies the xattr ordering. -/
structure Inv (w : OstreeTarWriter) : Prop where
  dt0 : ∀ c, c ∉ w.wrote_dirtree → cntK (fmtv w) (.obj .DirTree) c w.out = 0
  dt1 : ∀ c, cntK (fmtv w) (.obj .DirTree) c w.out ≤ 1
  dm0 : ∀ c, c ∉ w.wrote_dirmeta → cntK (fmtv w) (.obj .DirMeta) c w.out = 0
  dm1 : ∀ c, cntK (fmtv w) (.obj .DirMeta) c w.out ≤ 1
  ct0 : ∀ c, c ∉ w.wrote_content → cntK (fmtv w) (.obj .File) c w.out = 0
  ct1 : ∀ c, cntK (fmtv w) (.obj .File) c w.out ≤ 1
  xb0 : ∀ x, x ∉ w.wrote_xattrs → cntK (fmtv w) .xblob x w.out = 0
  xb1 : ∀ x, cntK (fmtv w) .xblob x w.out ≤ 1
  blob_ex : ∀ x ∈ w.wrote_xattrs, ∃ e ∈ w.out, isBlobB (fmtv w) x e = true
  xorder : XOrder (fmtv w) w.repo w.out

/-! ### Except monad plumbing -/

theorem exceptBind_ok {α β : Type} {x : Except String α} {f : α → Except String β}
    {b : β} (h : x >>= f = .ok b) : ∃ a, x = .ok a ∧ f a = .ok b := by
  cases x with
  | error e => exact absurd h (by simp [Bind.bind, Except.bind])
  | ok a => exact ⟨a, rfl, by simpa [Bind.bind, Except.bind] using h⟩

theorem ofOption_ok {α : Type} {o : Option α} {msg : String} {a : α}
    (h : ofOption o msg = .ok a) : o = some a := by
  cases o with
  | none => exact absurd h (by simp [ofOption])
  | some b => simpa [ofOption] using h

/-! ### Classifying entries by kind -/

theorem isFileEmissionB_eq (v : Nat) (c : String) (e : TarEntry) :
    isFileEmissionB c e = isEmissionB v (.obj .File) c e := rfl

theorem isEmissionB_of_directory {e : TarEntry}
    (h : e.header.entryType = .Directory) (v : Nat) (k : EmitKind) (c : String) :
    isEmissionB v k c e = false := by
  simp [isEmissionB, h]

theorem isEmissionB_of_link {e : TarEntry}
    (h : e.header.entryType = .Link) (v : Nat) (k : EmitKind) (c : String) :
    isEmissionB v k c e = false := by
  simp [isEmissionB, h]

theorem isFileEmissionB_of_path {e : TarEntry} {c : String}
    (h : e.path ≠ object_path .File c) : isFileEmissionB c e = false := by
  simp [isFileEmissionB, h]

theorem isEmissionB_of_path {v : Nat} {k : EmitKind} {c : String} {e : TarEntry}
    (h : e.path ≠ kindPath v k c) : isEmissionB v k c e = false := by
  simp [isEmissionB, h]

theorem kindPath_xblob (v : Nat) (c : String) :
    kindPath v .xblob c = xblobPath v c := rfl

/-- An object entry (Commit, CommitMeta, DirTree, DirMeta) is an emission
precisely of its own kind and checksum. -/
theorem isEmissionB_objEntry (v : Nat) (k : EmitKind) (c : String)
    (t0 : ObjectType) (c0 : String) (d : List Nat) :
    isEmissionB v k c (defaultDataEntry (object_path t0 c0) d) =
      (k == .obj t0 && c == c0) := by
  have hLHS : isEmissionB v k c (defaultDataEntry (object_path t0 c0) d) =
      (object_path t0 c0 == kindPath v k c) := by
    simp [isEmissionB, defaultDataEntry]
  rw [hLHS, Bool.eq_iff_iff]
  simp only [beq_iff_eq, Bool.and_eq_true]
  constructor
  · intro h
    rcases k with t | _
    · have h' : object_path t0 c0 = object_path t c := h
      obtain ⟨h1, h2⟩ := object_path_inj h'
      exact ⟨by rw [h1], h2.symm⟩
    · exfalso
      have h' : object_path t0 c0 = xblobPath v c := h
      rw [xblobPath] at h'
      by_cases hv : v = 0
      · rw [if_pos hv] at h'
        exact object_path_ne_v0_xattrs t0 c0 c h'
      · rw [if_neg hv] at h'
        exact object_path_ne_v1_xattrs t0 c0 c h'
  · rintro ⟨hk, hc⟩
    subst hc
    subst hk
    rfl

/-- An xattr blob entry is an emission precisely of the xblob kind at its
own checksum (for the version it was written under). -/
theorem isEmissionB_blobEntry (v : Nat) (k : EmitKind) (c : String)
    (x0 : String) (d : List Nat) :
    isEmissionB v k c (defaultDataEntry (xblobPath v x0) d) =
      (k == .xblob && c == x0) := by
  have hLHS : isEmissionB v k c (defaultDataEntry (xblobPath v x0) d) =
      (xblobPath v x0 == kindPath v k c) := by
    simp [isEmissionB, defaultDataEntry]
  rw [hLHS, Bool.eq_iff_iff]
  simp only [beq_iff_eq, Bool.and_eq_true]
  constructor
  · intro h
    rcases k with t | _
    · exfalso
      have h' : xblobPath v x0 = object_path t c := h
      rw [xblobPath] at h'
      by_cases hv : v = 0
      · rw [if_pos hv] at h'
        exact object_path_ne_v0_xattrs t c x0 h'.symm
      · rw [if_neg hv] at h'
        exact object_path_ne_v1_xattrs t c x0 h'.symm
    · refine ⟨rfl, ?_⟩
      have h' : xblobPath v x0 = xblobPath v c := h
      rw [xblobPath, xblobPath] at h'
      by_cases hv : v = 0
      · rw [if_pos hv, if_pos hv] at h'
        exact (v0_xattrs_path_inj h'.symm)
      · rw [if_neg hv, if_neg hv] at h'
        exact (v1_xattrs_object_path_inj h'.symm)
  · rintro ⟨hk, hc⟩
    subst hc
    subst hk
    rfl

/-! ### Counting helpers -/

theorem cntK_append (v : Nat) (k : EmitKind) (c : String) (l1 l2 : List TarEntry) :
    cntK v k c (l1 ++ l2) = cntK v k c l1 + cntK v k c l2 :=
  List.countP_append _ _ _

theorem cntK_eq_zero {v : Nat} {k : EmitKind} {c : String} {l : List TarEntry}
    (h : ∀ e ∈ l, isEmissionB v k c e = false) : cntK v k c l = 0 := by
  simp only [cntK, List.countP_eq_zero]
  intro e he
  simp [h e he]

theorem cntK_singleton (v : Nat) (k : EmitKind) (c : String) (e : TarEntry) :
    cntK v k c [e] = if isEmissionB v k c e then 1 else 0 := by
  simp [cntK, List.countP_cons]

/-! ### The ordering property under stream extension -/

theorem XOrder_append {v : Nat} {repo : Repo} {out new : List TarEntry}
    (h : XOrder v repo out)
    (hnew : ∀ l1 e l2 c, new = l1 ++ e :: l2 → isFileEmissionB c e = true →
      xattrCondB repo v c = true →
      (∃ b ∈ out ++ l1, isBlobB v (xhOf repo c) b = true) ∧
        (∃ lk ∈ out ++ l1, isLinkB v c lk = true)) :
    XOrder v repo (out ++ new) := by
  intro l1 e l2 c heq hfe hcond
  rcases List.append_eq_append_iff.mp heq.symm with ⟨a1, ha1, ha2⟩ | ⟨c1, hc1, hc2⟩
  · cases a1 with
    | nil =>
      simp only [List.append_nil] at ha1
      simp only [List.nil_append] at ha2
      have := hnew [] e l2 c ha2.symm hfe hcond
      simpa [ha1] using this
    | cons y ys =>
      have hye : e = y ∧ l2 = ys ++ new := by
        simp only [List.cons_append, List.cons.injEq] at ha2
        exact ha2
      obtain ⟨hye1, hye2⟩ := hye
      subst hye1
      exact h l1 e ys c (by rw [ha1]) hfe hcond
  · have := hnew c1 e l2 c hc2 hfe hcond
    simpa [hc1] using this

theorem XOrder_append_nofile {v : Nat} {repo : Repo} {out new : List TarEntry}
    (h : XOrder v repo out)
    (hnew : ∀ e ∈ new, ∀ c, isFileEmissionB c e = false) :
    XOrder v repo (out ++ new) := by
  refine XOrder_append h ?_
  intro l1 e l2 c heq hfe _
  exfalso
  have : e ∈ new := by rw [heq]; simp
  rw [hnew e this c] at hfe
  exact Bool.false_ne_true hfe

/-! ### Per-operation specifications -/

/-- The fields of the writer an operation never touches. -/
def Frame (w w' : OstreeTarWriter) : Prop :=
  w'.repo = w.repo ∧ w'.options = w.options ∧
    w'.commit_checksum = w.commit_checksum ∧ w'.commit_object = w.commit_object

theorem Frame.refl {w : OstreeTarWriter} : Frame w w :=
  ⟨Eq.refl _, Eq.refl _, Eq.refl _, Eq.refl _⟩

theorem Frame.trans {w1 w2 w3 : OstreeTarWriter} (h1 : Frame w1 w2)
    (h2 : Frame w2 w3) : Frame w1 w3 :=
  ⟨h2.1.trans h1.1, h2.2.1.trans h1.2.1, h2.2.2.1.trans h1.2.2.1,
    h2.2.2.2.trans h1.2.2.2⟩

/-- An entry that is no emission of the Commit or CommitMeta kind (the
object-kind paths do not depend on the format version). -/
def NoCommitE (e : TarEntry) : Prop :=
  ∀ c, isEmissionB 0 (.obj .Commit) c e = false ∧
    isEmissionB 0 (.obj .CommitMeta) c e = false

theorem isEmissionB_obj_v (v : Nat) (t : ObjectType) (c : String) (e : TarEntry) :
    isEmissionB v (.obj t) c e = isEmissionB 0 (.obj t) c e := rfl

/-- Every entry of a full export sits under ./ or under sysroot. -/
def PathOK (e : TarEntry) : Prop :=
  strStartsWith e.path "./" = true ∨ strStartsWith e.path "sysroot" = true

/-- Well-formed repository: dirtree member names are not absolute (ostree
dirtree names are plain filenames). -/
def RepoWF (repo : Repo) : Prop :=
  ∀ cs dt, repo.load_variant_dirtree cs = some dt →
    (∀ p ∈ dt.files, strStartsWith p.1 "/" = false) ∧
    (∀ p ∈ dt.dirs, strStartsWith p.1 "/" = false)

/-- The common conclusion of one emission step. -/
def EmitsOK (w w' : OstreeTarWriter) (new : List TarEntry) : Prop :=
  w'.out = w.out ++ new ∧ Inv w' ∧ Frame w w' ∧ ∀ e ∈ new, NoCommitE e

theorem EmitsOK_trans {w1 w2 w3 : OstreeTarWriter} {n1 n2 : List TarEntry}
    (h1 : EmitsOK w1 w2 n1) (h2 : EmitsOK w2 w3 n2) :
    EmitsOK w1 w3 (n1 ++ n2) := by
  obtain ⟨ho1, _, hf1, hn1⟩ := h1
  obtain ⟨ho2, hi2, hf2, hn2⟩ := h2
  refine ⟨by rw [ho2, ho1, List.append_assoc], hi2, Frame.trans hf1 hf2, ?_⟩
  intro e he
  rcases List.mem_append.mp he with h | h
  · exact hn1 e h
  · exact hn2 e h

theorem EmitsOK_refl {w : OstreeTarWriter} (hInv : Inv w) : EmitsOK w w [] :=
  ⟨by simp, hInv, Frame.refl, by simp⟩

theorem cntK_append_single (v : Nat) (k : EmitKind) (c : String)
    (out : List TarEntry) (e : TarEntry) :
    cntK v k c (out ++ [e]) =
      cntK v k c out + (if isEmissionB v k c e then 1 else 0) := by
  rw [cntK_append, cntK_singleton]

/-! ### Canonical paths start under sysroot -/

theorem strStartsWith_append (s t pre : String)
    (h : strStartsWith s pre = true) : strStartsWith (s ++ t) pre = true := by
  simp only [strStartsWith, List.isPrefixOf_iff_prefix] at *
  rw [String.data_append]
  exact h.trans (List.prefix_append _ _)

theorem object_path_startsSysroot (t : ObjectType) (c : String) :
    strStartsWith (object_path t c) "sysroot" = true := by
  unfold object_path
  apply strStartsWith_append
  apply strStartsWith_append
  apply strStartsWith_append
  apply strStartsWith_append
  apply strStartsWith_append
  apply strStartsWith_append
  decide

theorem v0_xattrs_path_startsSysroot (c : String) :
    strStartsWith (v0_xattrs_path c) "sysroot" = true := by
  unfold v0_xattrs_path
  apply strStartsWith_append
  apply strStartsWith_append
  decide

theorem v1_xattrs_object_path_startsSysroot (c : String) :
    strStartsWith (v1_xattrs_object_path c) "sysroot" = true := by
  unfold v1_xattrs_object_path
  apply strStartsWith_append
  apply strStartsWith_append
  apply strStartsWith_append
  apply strStartsWith_append
  apply strStartsWith_append
  decide

theorem v1_xattrs_link_object_path_startsSysroot (c : String) :
    strStartsWith (v1_xattrs_link_object_path c) "sysroot" = true := by
  unfold v1_xattrs_link_object_path
  apply strStartsWith_append
  apply strStartsWith_append
  apply strStartsWith_append
  apply strStartsWith_append
  apply strStartsWith_append
  decide

theorem v0_xattrs_object_path_startsSysroot (c : String) :
    strStartsWith (v0_xattrs_object_path c) "sysroot" = true := by
  unfold v0_xattrs_object_path
  apply strStartsWith_append
  apply strStartsWith_append
  apply strStartsWith_append
  apply strStartsWith_append
  apply strStartsWith_append
  decide

theorem xblobPath_startsSysroot (v : Nat) (c : String) :
    strStartsWith (xblobPath v c) "sysroot" = true := by
  unfold xblobPath
  split
  · exact v0_xattrs_path_startsSysroot c
  · exact v1_xattrs_object_path_startsSysroot c

theorem xlinkPath_startsSysroot (v : Nat) (c : String) :
    strStartsWith (xlinkPath v c) "sysroot" = true := by
  unfold xlinkPath
  split
  · exact v0_xattrs_object_path_startsSysroot c
  · exact v1_xattrs_link_object_path_startsSysroot c

/-! ### Invariant preservation, operation by operation -/

/-- An entry that is no emission of any kind the invariant tracks
(DirTree, DirMeta, File, xattr blob). -/
def TrackNeutral (v : Nat) (e : TarEntry) : Prop :=
  ∀ c, isEmissionB v (.obj .DirTree) c e = false ∧
    isEmissionB v (.obj .DirMeta) c e = false ∧
    isEmissionB v (.obj .File) c e = false ∧
    isEmissionB v .xblob c e = false

/-- Appending entries that are emissions of no tracked kind preserves the
invariant (only the output changes). -/
theorem Inv_append_neutral {w : OstreeTarWriter} (hInv : Inv w)
    (new : List TarEntry)
    (hne : ∀ e ∈ new, TrackNeutral (fmtv w) e) :
    Inv { w with out := w.out ++ new } := by
  refine ⟨?_, ?_, ?_, ?_, ?_, ?_, ?_, ?_, ?_, ?_⟩
  · intro c hc
    show cntK (fmtv w) (.obj .DirTree) c (w.out ++ new) = 0
    rw [cntK_append, cntK_eq_zero (fun e he => (hne e he c).1), hInv.dt0 c hc]
  · intro c
    show cntK (fmtv w) (.obj .DirTree) c (w.out ++ new) ≤ 1
    rw [cntK_append, cntK_eq_zero (fun e he => (hne e he c).1)]
    have := hInv.dt1 c
    omega
  · intro c hc
    show cntK (fmtv w) (.obj .DirMeta) c (w.out ++ new) = 0
    rw [cntK_append, cntK_eq_zero (fun e he => (hne e he c).2.1), hInv.dm0 c hc]
  · intro c
    show cntK (fmtv w) (.obj .DirMeta) c (w.out ++ new) ≤ 1
    rw [cntK_append, cntK_eq_zero (fun e he => (hne e he c).2.1)]
    have := hInv.dm1 c
    omega
  · intro c hc
    show cntK (fmtv w) (.obj .File) c (w.out ++ new) = 0
    rw [cntK_append, cntK_eq_zero (fun e he => (hne e he c).2.2.1), hInv.ct0 c hc]
  · intro c
    show cntK (fmtv w) (.obj .File) c (w.out ++ new) ≤ 1
    rw [cntK_append, cntK_eq_zero (fun e he => (hne e he c).2.2.1)]
    have := hInv.ct1 c
    omega
  · intro x hx
    show cntK (fmtv w) .xblob x (w.out ++ new) = 0
    rw [cntK_append, cntK_eq_zero (fun e he => (hne e he x).2.2.2), hInv.xb0 x hx]
  · intro x
    show cntK (fmtv w) .xblob x (w.out ++ new) ≤ 1
    rw [cntK_append, cntK_eq_zero (fun e he => (hne e he x).2.2.2)]
    have := hInv.xb1 x
    omega
  · intro x hx
    obtain ⟨e, he, hP⟩ := hInv.blob_ex x hx
    exact ⟨e, List.mem_append_left _ he, hP⟩
  · exact XOrder_append_nofile hInv.xorder (fun e he c => by
      rw [isFileEmissionB_eq (fmtv w)]; exact (hne e he c).2.2.1)

theorem append_DirTree_spec {w w' : OstreeTarWriter} {cs : String} {d : List Nat}
    (h : append w .DirTree cs d = .ok w') (hInv : Inv w) :
    ∃ new, EmitsOK w w' new ∧
      ∀ e ∈ new, PathOK e ∧ (∀ c, isFileEmissionB c e = false) := by
  by_cases hmem : cs ∈ w.wrote_dirtree
  · have hw : w' = w := by
      have := h
      simp [append, hmem] at this
      exact this.symm
    subst hw
    exact ⟨[], EmitsOK_refl hInv, by simp⟩
  · have hw : w' = { w with
        wrote_dirtree := cs :: w.wrote_dirtree
        out := w.out ++ [defaultDataEntry (object_path .DirTree cs) d] } := by
      have := h
      simp [append, hmem, append_default_data, appendEntry] at this
      exact this.symm
    subst hw
    refine ⟨[defaultDataEntry (object_path .DirTree cs) d],
      ⟨rfl, ?_, ⟨rfl, rfl, rfl, rfl⟩, ?_⟩, ?_⟩
    · refine ⟨?_, ?_, ?_, ?_, ?_, ?_, ?_, ?_, ?_, ?_⟩
      · intro c hc
        have h1 : c ∉ w.wrote_dirtree := fun hh => hc (List.mem_cons_of_mem _ hh)
        have h2 : c ≠ cs := fun hh => hc (hh ▸ List.mem_cons_self _ _)
        show cntK (fmtv w) (.obj .DirTree) c
          (w.out ++ [defaultDataEntry (object_path .DirTree cs) d]) = 0
        rw [cntK_append_single, hInv.dt0 c h1]
        simp [isEmissionB_objEntry, h2]
      · intro c
        show cntK (fmtv w) (.obj .DirTree) c
          (w.out ++ [defaultDataEntry (object_path .DirTree cs) d]) ≤ 1
        rw [cntK_append_single]
        by_cases hcs : c = cs
        · subst hcs
          rw [hInv.dt0 c hmem]
          simp [isEmissionB_objEntry]
        · have := hInv.dt1 c
          rw [isEmissionB_objEntry]
          simp [hcs]
          omega
      · intro c hc
        show cntK (fmtv w) (.obj .DirMeta) c
          (w.out ++ [defaultDataEntry (object_path .DirTree cs) d]) = 0
        rw [cntK_append_single, hInv.dm0 c hc]
        simp [isEmissionB_objEntry]
      · intro c
        show cntK (fmtv w) (.obj .DirMeta) c
          (w.out ++ [defaultDataEntry (object_path .DirTree cs) d]) ≤ 1
        rw [cntK_append_single]
        have := hInv.dm1 c
        rw [isEmissionB_objEntry]
        simp
        omega
      · intro c hc
        show cntK (fmtv w) (.obj .File) c
          (w.out ++ [defaultDataEntry (object_path .DirTree cs) d]) = 0
        rw [cntK_append_single, hInv.ct0 c hc]
        simp [isEmissionB_objEntry]
      · intro c
        show cntK (fmtv w) (.obj .File) c
          (w.out ++ [defaultDataEntry (object_path .DirTree cs) d]) ≤ 1
        rw [cntK_append_single]
        have := hInv.ct1 c
        rw [isEmissionB_objEntry]
        simp
        omega
      · intro x hx
        show cntK (fmtv w) .xblob x
          (w.out ++ [defaultDataEntry (object_path .DirTree cs) d]) = 0
        rw [cntK_append_single, hInv.xb0 x hx]
        simp [isEmissionB_objEntry]
      · intro x
        show cntK (fmtv w) .xblob x
          (w.out ++ [defaultDataEntry (object_path .DirTree cs) d]) ≤ 1
        rw [cntK_append_single]
        have := hInv.xb1 x
        rw [isEmissionB_objEntry]
        simp
        omega
      · intro x hx
        obtain ⟨e, he, hP⟩ := hInv.blob_ex x hx
        exact ⟨e, List.mem_append_left _ he, hP⟩
      · exact XOrder_append_nofile hInv.xorder (fun e he c => by
          simp at he
          subst he
          rw [isFileEmissionB_eq (fmtv w), isEmissionB_objEntry]
          simp)
    · intro e he
      simp at he
      subst he
      intro c
      constructor
      · rw [isEmissionB_objEntry]; simp
      · rw [isEmissionB_objEntry]; simp
    · intro e he
      simp at he
      subst he
      refine ⟨Or.inr ?_, ?_⟩
      · exact object_path_startsSysroot .DirTree cs
      · intro c
        rw [isFileEmissionB_eq (fmtv w), isEmissionB_objEntry]
        simp

theorem append_DirMeta_spec {w w' : OstreeTarWriter} {cs : String} {d : List Nat}
    (h : append w .DirMeta cs d = .ok w') (hInv : Inv w) :
    ∃ new, EmitsOK w w' new ∧
      ∀ e ∈ new, PathOK e ∧ (∀ c, isFileEmissionB c e = false) := by
  by_cases hmem : cs ∈ w.wrote_dirmeta
  · have hw : w' = w := by
      have := h
      simp [append, hmem] at this
      exact this.symm
    subst hw
    exact ⟨[], EmitsOK_refl hInv, by simp⟩
  · have hw : w' = { w with
        wrote_dirmeta := cs :: w.wrote_dirmeta
        out := w.out ++ [defaultDataEntry (object_path .DirMeta cs) d] } := by
      have := h
      simp [append, hmem, append_default_data, appendEntry] at this
      exact this.symm
    subst hw
    refine ⟨[defaultDataEntry (object_path .DirMeta cs) d],
      ⟨rfl, ?_, ⟨rfl, rfl, rfl, rfl⟩, ?_⟩, ?_⟩
    · refine ⟨?_, ?_, ?_, ?_, ?_, ?_, ?_, ?_, ?_, ?_⟩
      · intro c hc
        show cntK (fmtv w) (.obj .DirTree) c
          (w.out ++ [defaultDataEntry (object_path .DirMeta cs) d]) = 0
        rw [cntK_append_single, hInv.dt0 c hc]
        simp [isEmissionB_objEntry]
      · intro c
        show cntK (fmtv w) (.obj .DirTree) c
          (w.out ++ [defaultDataEntry (object_path .DirMeta cs) d]) ≤ 1
        rw [cntK_append_single]
        have := hInv.dt1 c
        rw [isEmissionB_objEntry]
        simp
        omega
      · intro c hc
        have h1 : c ∉ w.wrote_dirmeta := fun hh => hc (List.mem_cons_of_mem _ hh)
        have h2 : c ≠ cs := fun hh => hc (hh ▸ List.mem_cons_self _ _)
        show cntK (fmtv w) (.obj .DirMeta) c
          (w.out ++ [defaultDataEntry (object_path .DirMeta cs) d]) = 0
        rw [cntK_append_single, hInv.dm0 c h1]
        simp [isEmissionB_objEntry, h2]
      · intro c
        show cntK (fmtv w) (.obj .DirMeta) c
          (w.out ++ [defaultDataEntry (object_path .DirMeta cs) d]) ≤ 1
        rw [cntK_append_single]
        by_cases hcs : c = cs
        · subst hcs
          rw [hInv.dm0 c hmem]
          simp [isEmissionB_objEntry]
        · have := hInv.dm1 c
          rw [isEmissionB_objEntry]
          simp [hcs]
          omega
      · intro c hc
        show cntK (fmtv w) (.obj .File) c
          (w.out ++ [defaultDataEntry (object_path .DirMeta cs) d]) = 0
        rw [cntK_append_single, hInv.ct0 c hc]
        simp [isEmissionB_objEntry]
      · intro c
        show cntK (fmtv w) (.obj .File) c
          (w.out ++ [defaultDataEntry (object_path .DirMeta cs) d]) ≤ 1
        rw [cntK_append_single]
        have := hInv.ct1 c
        rw [isEmissionB_objEntry]
        simp
        omega
      · intro x hx
        show cntK (fmtv w) .xblob x
          (w.out ++ [defaultDataEntry (object_path .DirMeta cs) d]) = 0
        rw [cntK_append_single, hInv.xb0 x hx]
        simp [isEmissionB_objEntry]
      · intro x
        show cntK (fmtv w) .xblob x
          (w.out ++ [defaultDataEntry (object_path .DirMeta cs) d]) ≤ 1
        rw [cntK_append_single]
        have := hInv.xb1 x
        rw [isEmissionB_objEntry]
        simp
        omega
      · intro x hx
        obtain ⟨e, he, hP⟩ := hInv.blob_ex x hx
        exact ⟨e, List.mem_append_left _ he, hP⟩
      · exact XOrder_append_nofile hInv.xorder (fun e he c => by
          simp at he
          subst he
          rw [isFileEmissionB_eq (fmtv w), isEmissionB_objEntry]
          simp)
    · intro e he
      simp at he
      subst he
      intro c
      constructor
      · rw [isEmissionB_objEntry]; simp
      · rw [isEmissionB_objEntry]; simp
    · intro e he
      simp at he
      subst he
      refine ⟨Or.inr ?_, ?_⟩
      · exact object_path_startsSysroot .DirMeta cs
      · intro c
        rw [isFileEmissionB_eq (fmtv w), isEmissionB_objEntry]
        simp

/-- Appending a Commit or CommitMeta object: the invariant is preserved
(these kinds are not deduplicated and are counted separately), and the new
entry is an emission exactly of its own kind and checksum. -/
theorem append_CommitLike_spec {w w' : OstreeTarWriter} {t : ObjectType}
    {cs : String} {d : List Nat} (ht : t = .Commit ∨ t = .CommitMeta)
    (h : append w t cs d = .ok w') (hInv : Inv w) :
    w' = { w with out := w.out ++ [defaultDataEntry (object_path t cs) d] } ∧
      Inv w' ∧ Frame w w' ∧
      (∀ k c, isEmissionB (fmtv w) k c (defaultDataEntry (object_path t cs) d) =
        (k == .obj t && c == cs)) := by
  have hw : w' = { w with out := w.out ++ [defaultDataEntry (object_path t cs) d] } := by
    rcases ht with ht | ht <;> subst ht <;>
      (have h2 := h; simp [append, append_default_data, appendEntry] at h2;
       exact h2.symm)
  subst hw
  refine ⟨rfl, ?_, ⟨rfl, rfl, rfl, rfl⟩, fun k c => isEmissionB_objEntry _ k c t cs d⟩
  apply Inv_append_neutral hInv
  intro e he c
  simp at he
  subst he
  rcases ht with ht | ht <;> subst ht <;>
    exact ⟨by rw [isEmissionB_objEntry]; simp, by rw [isEmissionB_objEntry]; simp,
      by rw [isEmissionB_objEntry]; simp, by rw [isEmissionB_objEntry]; simp⟩

/-! ### The scaffold specification -/

theorem foldl_append_default_dir (l : List String) (w : OstreeTarWriter) :
    l.foldl append_default_dir w = { w with out := w.out ++ l.map defaultDirEntry } := by
  induction l generalizing w with
  | nil => simp
  | cons p ps ih =>
    rw [List.foldl_cons, ih]
    simp [append_default_dir, appendEntry]

theorem scaffoldDirPaths_startSysroot (v : Nat) :
    ∀ p ∈ scaffoldDirPaths v, strStartsWith p "sysroot" = true := by
  intro p hp
  simp only [scaffoldDirPaths, List.append_assoc, List.mem_append] at hp
  rcases hp with hp | hp | hp | hp
  · have hanc : (pathAncestors objdir).reverse.filter (fun p => !(p == "/" || p == "")) =
        ["sysroot", "sysroot/ostree", "sysroot/ostree/repo",
         "sysroot/ostree/repo/objects"] := by decide
    rw [hanc] at hp
    simp only [List.mem_cons, List.not_mem_nil, or_false] at hp
    rcases hp with rfl | rfl | rfl | rfl <;> decide
  · obtain ⟨d, _, hd⟩ := List.mem_map.mp hp
    subst hd
    apply strStartsWith_append
    apply strStartsWith_append
    decide
  · obtain ⟨d, _, hd⟩ := List.mem_map.mp hp
    subst hd
    apply strStartsWith_append
    apply strStartsWith_append
    decide
  · split at hp
    · simp at hp
      subst hp
      decide
    · simp at hp

theorem config_ne_object_path (v : Nat) (t : ObjectType) (c : String) :
    configPath v ≠ object_path t c := by
  unfold configPath
  split
  · exact config0_ne_object_path t c
  · exact config1_ne_object_path t c

theorem config_ne_xblobPath (v : Nat) (x : String) :
    configPath v ≠ xblobPath v x := by
  unfold configPath xblobPath
  by_cases hv : v = 0
  · rw [if_pos hv, if_pos hv]; exact config0_ne_v0_xattrs x
  · rw [if_neg hv, if_neg hv]; exact config1_ne_v1_xattrs x

theorem configPath_trackNeutral (v : Nat) (buf : List Nat) :
    TrackNeutral v (defaultDataEntry (configPath v) buf) := fun c =>
  ⟨isEmissionB_of_path (config_ne_object_path v .DirTree c),
    isEmissionB_of_path (config_ne_object_path v .DirMeta c),
    isEmissionB_of_path (config_ne_object_path v .File c),
    isEmissionB_of_path (config_ne_xblobPath v c)⟩

theorem configPath_startsSysroot (v : Nat) :
    strStartsWith (configPath v) "sysroot" = true := by
  unfold configPath
  split
  · decide
  · apply strStartsWith_append
    decide

/-- The invariant ignores the wrote_initdirs flag. -/
theorem Inv_set_initdirs {w : OstreeTarWriter} (b : Bool) (h : Inv w) :
    Inv { w with wrote_initdirs := b } :=
  ⟨h.dt0, h.dt1, h.dm0, h.dm1, h.ct0, h.ct1, h.xb0, h.xb1, h.blob_ex, h.xorder⟩

/-- What one scaffold invocation appends. -/
def scaffoldEntries (v : Nat) : List TarEntry :=
  (scaffoldDirPaths v).map defaultDirEntry ++
    [defaultDataEntry (configPath v) REPO_CONFIG_BYTES]

theorem write_repo_structure_spec {w w' : OstreeTarWriter}
    (h : write_repo_structure w = .ok w') (hInv : Inv w) :
    ∃ new, EmitsOK w w' new ∧ w'.wrote_initdirs = true ∧
      w'.wrote_dirtree = w.wrote_dirtree ∧ w'.wrote_dirmeta = w.wrote_dirmeta ∧
      w'.wrote_content = w.wrote_content ∧ w'.wrote_xattrs = w.wrote_xattrs ∧
      (w.wrote_initdirs = true → new = [] ∧ w' = w) ∧
      (w.wrote_initdirs = false → new = scaffoldEntries (fmtv w)) ∧
      ∀ e ∈ new, PathOK e ∧ (∀ c, isFileEmissionB c e = false) ∧
        e.header.uid = 0 ∧ e.header.gid = 0 := by
  by_cases hinit : w.wrote_initdirs
  · have hw : w' = w := by
      have := h
      simp [write_repo_structure, hinit] at this
      exact this.symm
    subst hw
    refine ⟨[], EmitsOK_refl hInv, hinit, rfl, rfl, rfl, rfl,
      fun _ => ⟨rfl, rfl⟩, fun hf => absurd hinit (by simp [hf]), by simp⟩
  · have hinit' : w.wrote_initdirs = false := by simpa using hinit
    have hv : w.options.format_version = 0 ∨ w.options.format_version = 1 := by
      rcases h3 : w.options.format_version with _ | n
      · exact Or.inl rfl
      · rcases n with _ | m
        · exact Or.inr rfl
        · exfalso
          have := h
          simp [write_repo_structure, hinit', foldl_append_default_dir, h3] at this
    have hw : w' = { w with
        out := w.out ++ scaffoldEntries (fmtv w)
        wrote_initdirs := true } := by
      rcases hv with hv | hv
      all_goals (
        have hgoal := h
        simp [write_repo_structure, hinit', foldl_append_default_dir, hv,
          append_default_data, appendEntry] at hgoal
        rw [← hgoal]
        simp [scaffoldEntries, fmtv, hv, configPath, List.append_assoc])
    subst hw
    have hne : ∀ e ∈ scaffoldEntries (fmtv w), TrackNeutral (fmtv w) e := by
      intro e he
      rcases List.mem_append.mp he with he | he
      · obtain ⟨p, _, hp⟩ := List.mem_map.mp he
        subst hp
        intro c
        refine ⟨?_, ?_, ?_, ?_⟩ <;> exact isEmissionB_of_directory rfl _ _ _
      · simp only [List.mem_singleton] at he
        subst he
        exact configPath_trackNeutral (fmtv w) REPO_CONFIG_BYTES
    refine ⟨scaffoldEntries (fmtv w), ⟨rfl, ?_, ⟨rfl, rfl, rfl, rfl⟩, ?_⟩, rfl,
      rfl, rfl, rfl, rfl, fun hf => absurd hf (by simp [hinit']),
      fun _ => rfl, ?_⟩
    · exact Inv_set_initdirs true (Inv_append_neutral hInv _ hne)
    · intro e he c
      rcases List.mem_append.mp he with he | he
      · obtain ⟨p, _, hp⟩ := List.mem_map.mp he
        subst hp
        exact ⟨isEmissionB_of_directory rfl _ _ _, isEmissionB_of_directory rfl _ _ _⟩
      · simp only [List.mem_singleton] at he
        subst he
        exact ⟨isEmissionB_of_path (config_ne_object_path (fmtv w) .Commit c),
          isEmissionB_of_path (config_ne_object_path (fmtv w) .CommitMeta c)⟩
    · intro e he
      refine ⟨?_, fun c => by
        rw [isFileEmissionB_eq (fmtv w)]; exact (hne e he c).2.2.1, ?_, ?_⟩
      · rcases List.mem_append.mp he with he | he
        · obtain ⟨p, hpmem, hp⟩ := List.mem_map.mp he
          subst hp
          exact Or.inr (scaffoldDirPaths_startSysroot (fmtv w) p hpmem)
        · simp only [List.mem_singleton] at he
          subst he
          exact Or.inr (configPath_startsSysroot (fmtv w))
      all_goals (
        rcases List.mem_append.mp he with he | he
        · obtain ⟨p, _, hp⟩ := List.mem_map.mp he
          subst hp
          rfl
        · simp only [List.mem_singleton] at he
          subst he
          rfl)


/-! ### The xattr emitter specification -/

theorem isLinkB_hardlinkEntry (v : Nat) (cs : String) (tgt : String) :
    isLinkB v cs (defaultHardlinkEntry (xlinkPath v cs) tgt) = true := by
  simp [isLinkB, defaultHardlinkEntry]

theorem isBlobB_blobEntry (v : Nat) (x : String) (d : List Nat) :
    isBlobB v x (defaultDataEntry (xblobPath v x) d) = true := by
  simp [isBlobB, defaultDataEntry]

theorem isEmissionB_hardlinkEntry (v : Nat) (k : EmitKind) (c : String)
    (p t : String) : isEmissionB v k c (defaultHardlinkEntry p t) = false :=
  isEmissionB_of_link rfl v k c

theorem isFileEmissionB_hardlinkEntry (c p t : String) :
    isFileEmissionB c (defaultHardlinkEntry p t) = false := by
  simp [isFileEmissionB, defaultHardlinkEntry]

theorem isEmissionB_dirEntry (v : Nat) (k : EmitKind) (c : String) (p : String) :
    isEmissionB v k c (defaultDirEntry p) = false :=
  isEmissionB_of_directory rfl v k c

theorem isFileEmissionB_dirEntry (c p : String) :
    isFileEmissionB c (defaultDirEntry p) = false := by
  simp [isFileEmissionB, defaultDirEntry]

/-- A blob entry is no emission of an object kind, for any pair of
versions. -/
theorem isEmissionB_obj_blobEntry (v v' : Nat) (t : ObjectType) (c x0 : String)
    (d : List Nat) :
    isEmissionB v' (.obj t) c (defaultDataEntry (xblobPath v x0) d) = false := by
  apply isEmissionB_of_path
  show xblobPath v x0 ≠ object_path t c
  unfold xblobPath
  split
  · exact fun hh => object_path_ne_v0_xattrs t c x0 hh.symm
  · exact fun hh => object_path_ne_v1_xattrs t c x0 hh.symm

theorem isFileEmissionB_blobEntry (v : Nat) (c x0 : String) (d : List Nat) :
    isFileEmissionB c (defaultDataEntry (xblobPath v x0) d) = false :=
  isEmissionB_obj_blobEntry v 0 .File c x0 d

/-- Case analysis of append_xattrs in the emitting situation. -/
theorem append_xattrs_cases {w w' : OstreeTarWriter} {cs : String} {x : List Nat}
    {b : Bool} (h : append_xattrs w cs x = .ok (w', b))
    (hnoskip : ¬(x.isEmpty ∧ w.options.format_version = 0))
    (hv : w.options.format_version = 0 ∨ w.options.format_version = 1) :
    b = true ∧
    ((hexEncode (w.repo.sha256 x) ∈ w.wrote_xattrs ∧
      w' = { w with out := w.out ++
        [defaultHardlinkEntry (xlinkPath (fmtv w) cs)
          (xblobPath (fmtv w) (hexEncode (w.repo.sha256 x)))] }) ∨
     (hexEncode (w.repo.sha256 x) ∉ w.wrote_xattrs ∧
      w' = { w with
        wrote_xattrs := hexEncode (w.repo.sha256 x) :: w.wrote_xattrs
        out := w.out ++
          [defaultDataEntry (xblobPath (fmtv w) (hexEncode (w.repo.sha256 x))) x,
           defaultHardlinkEntry (xlinkPath (fmtv w) cs)
             (xblobPath (fmtv w) (hexEncode (w.repo.sha256 x)))] })) := by
  rcases hv with hv | hv <;>
    by_cases hmem : hexEncode (w.repo.sha256 x) ∈ w.wrote_xattrs
  · have hxe : x.isEmpty = false := by
      cases hxx : x.isEmpty
      · rfl
      · exact absurd ⟨hxx, hv⟩ hnoskip
    have heq : append_xattrs w cs x = .ok (append_default_hardlink w
        (v0_xattrs_object_path cs)
        (v0_xattrs_path (hexEncode (w.repo.sha256 x))), true) := by
      unfold append_xattrs
      simp [hxe, hv, hmem]
    rw [heq] at h
    obtain ⟨hw, hb⟩ : w' = append_default_hardlink w (v0_xattrs_object_path cs)
        (v0_xattrs_path (hexEncode (w.repo.sha256 x))) ∧ b = true := by
      have := h
      simp only [Except.ok.injEq, Prod.mk.injEq] at this
      exact ⟨this.1.symm, this.2.symm⟩
    subst hw
    refine ⟨hb, Or.inl ⟨hmem, ?_⟩⟩
    simp [append_default_hardlink, appendEntry, fmtv, hv, xlinkPath, xblobPath]
  · have hxe : x.isEmpty = false := by
      cases hxx : x.isEmpty
      · rfl
      · exact absurd ⟨hxx, hv⟩ hnoskip
    have heq : append_xattrs w cs x = .ok (append_default_hardlink
        (append_default_data
          { w with wrote_xattrs := hexEncode (w.repo.sha256 x) :: w.wrote_xattrs }
          (v0_xattrs_path (hexEncode (w.repo.sha256 x))) x)
        (v0_xattrs_object_path cs)
        (v0_xattrs_path (hexEncode (w.repo.sha256 x))), true) := by
      unfold append_xattrs
      simp [hxe, hv, hmem]
    rw [heq] at h
    obtain ⟨hw, hb⟩ : w' = append_default_hardlink (append_default_data
        { w with wrote_xattrs := hexEncode (w.repo.sha256 x) :: w.wrote_xattrs }
        (v0_xattrs_path (hexEncode (w.repo.sha256 x))) x)
        (v0_xattrs_object_path cs)
        (v0_xattrs_path (hexEncode (w.repo.sha256 x))) ∧ b = true := by
      have := h
      simp only [Except.ok.injEq, Prod.mk.injEq] at this
      exact ⟨this.1.symm, this.2.symm⟩
    subst hw
    refine ⟨hb, Or.inr ⟨hmem, ?_⟩⟩
    simp [append_default_hardlink, append_default_data, appendEntry, fmtv, hv,
      xlinkPath, xblobPath, List.append_assoc]
  · have heq : append_xattrs w cs x = .ok (append_default_hardlink w
        (v1_xattrs_link_object_path cs)
        (v1_xattrs_object_path (hexEncode (w.repo.sha256 x))), true) := by
      unfold append_xattrs
      simp [hv, hmem]
    rw [heq] at h
    obtain ⟨hw, hb⟩ : w' = append_default_hardlink w (v1_xattrs_link_object_path cs)
        (v1_xattrs_object_path (hexEncode (w.repo.sha256 x))) ∧ b = true := by
      have := h
      simp only [Except.ok.injEq, Prod.mk.injEq] at this
      exact ⟨this.1.symm, this.2.symm⟩
    subst hw
    refine ⟨hb, Or.inl ⟨hmem, ?_⟩⟩
    simp [append_default_hardlink, appendEntry, fmtv, hv, xlinkPath, xblobPath]
  · have heq : append_xattrs w cs x = .ok (append_default_hardlink
        (append_default_data
          { w with wrote_xattrs := hexEncode (w.repo.sha256 x) :: w.wrote_xattrs }
          (v1_xattrs_object_path (hexEncode (w.repo.sha256 x))) x)
        (v1_xattrs_link_object_path cs)
        (v1_xattrs_object_path (hexEncode (w.repo.sha256 x))), true) := by
      unfold append_xattrs
      simp [hv, hmem]
    rw [heq] at h
    obtain ⟨hw, hb⟩ : w' = append_default_hardlink (append_default_data
        { w with wrote_xattrs := hexEncode (w.repo.sha256 x) :: w.wrote_xattrs }
        (v1_xattrs_object_path (hexEncode (w.repo.sha256 x))) x)
        (v1_xattrs_link_object_path cs)
        (v1_xattrs_object_path (hexEncode (w.repo.sha256 x))) ∧ b = true := by
      have := h
      simp only [Except.ok.injEq, Prod.mk.injEq] at this
      exact ⟨this.1.symm, this.2.symm⟩
    subst hw
    refine ⟨hb, Or.inr ⟨hmem, ?_⟩⟩
    simp [append_default_hardlink, append_default_data, appendEntry, fmtv, hv,
      xlinkPath, xblobPath, List.append_assoc]

theorem cntK_pair_zero {v : Nat} {k : EmitKind} {c : String} {e1 e2 : TarEntry}
    (h1 : isEmissionB v k c e1 = false) (h2 : isEmissionB v k c e2 = false) :
    cntK v k c [e1, e2] = 0 := by
  simp [cntK, List.countP_cons, List.countP_nil, h1, h2]

theorem append_xattrs_spec {w w' : OstreeTarWriter} {cs : String} {x : List Nat}
    {b : Bool} (h : append_xattrs w cs x = .ok (w', b)) (hInv : Inv w) :
    ∃ new, EmitsOK w w' new ∧
      w'.wrote_dirtree = w.wrote_dirtree ∧ w'.wrote_dirmeta = w.wrote_dirmeta ∧
      w'.wrote_content = w.wrote_content ∧ w'.wrote_initdirs = w.wrote_initdirs ∧
      (∀ e ∈ new, PathOK e ∧ (∀ c, isFileEmissionB c e = false)) ∧
      (¬(x = [] ∧ fmtv w = 0) →
        (∃ lk ∈ new, isLinkB (fmtv w) cs lk = true) ∧
        (∃ bl ∈ w'.out, isBlobB (fmtv w) (hexEncode (w.repo.sha256 x)) bl = true)) := by
  by_cases hskip : x.isEmpty ∧ w.options.format_version = 0
  · have hw : w' = w := by
      have := h
      simp [append_xattrs, hskip] at this
      exact this.1.symm
    subst hw
    refine ⟨[], EmitsOK_refl hInv, rfl, rfl, rfl, rfl, by simp, ?_⟩
    intro hcond
    exact absurd ⟨List.isEmpty_iff.mp hskip.1, hskip.2⟩ hcond
  · have hv : w.options.format_version = 0 ∨ w.options.format_version = 1 := by
      by_contra hcon
      push_neg at hcon
      have := h
      simp [append_xattrs, hskip, hcon.1, hcon.2] at this
    obtain ⟨hb, hcases⟩ := append_xattrs_cases h hskip hv
    rcases hcases with ⟨hmem, hw⟩ | ⟨hmem, hw⟩
    · subst hw
      have hlinkN : ∀ c, isEmissionB (fmtv w) (.obj .DirTree) c
            (defaultHardlinkEntry (xlinkPath (fmtv w) cs)
              (xblobPath (fmtv w) (hexEncode (w.repo.sha256 x)))) = false :=
        fun c => isEmissionB_of_link rfl _ _ _
      refine ⟨[defaultHardlinkEntry (xlinkPath (fmtv w) cs)
          (xblobPath (fmtv w) (hexEncode (w.repo.sha256 x)))],
        ⟨rfl, ?_, ⟨rfl, rfl, rfl, rfl⟩, ?_⟩, rfl, rfl, rfl, rfl, ?_, ?_⟩
      · exact Inv_append_neutral hInv _ (by
          intro e he
          simp only [List.mem_singleton] at he
          subst he
          intro c
          refine ⟨?_, ?_, ?_, ?_⟩ <;> exact isEmissionB_of_link rfl _ _ _)
      · intro e he c
        simp only [List.mem_singleton] at he
        subst he
        exact ⟨isEmissionB_of_link rfl _ _ _, isEmissionB_of_link rfl _ _ _⟩
      · intro e he
        simp only [List.mem_singleton] at he
        subst he
        exact ⟨Or.inr (xlinkPath_startsSysroot _ _),
          fun c => isFileEmissionB_hardlinkEntry c _ _⟩
      · intro _
        refine ⟨⟨defaultHardlinkEntry (xlinkPath (fmtv w) cs)
            (xblobPath (fmtv w) (hexEncode (w.repo.sha256 x))), by simp,
            isLinkB_hardlinkEntry _ _ _⟩, ?_⟩
        obtain ⟨bl, hblmem, hbl⟩ := hInv.blob_ex _ hmem
        exact ⟨bl, List.mem_append_left _ hblmem, hbl⟩
    · subst hw
      have hzObj : ∀ t c, t ≠ EmitKind.xblob →
          cntK (fmtv w) t c
            [defaultDataEntry (xblobPath (fmtv w) (hexEncode (w.repo.sha256 x))) x,
             defaultHardlinkEntry (xlinkPath (fmtv w) cs)
               (xblobPath (fmtv w) (hexEncode (w.repo.sha256 x)))] = 0 := by
        intro t c ht
        refine cntK_pair_zero ?_ (isEmissionB_hardlinkEntry _ _ _ _ _)
        rw [isEmissionB_blobEntry]
        simp only [Bool.and_eq_false_iff]
        left
        simp [beq_eq_false_iff_ne, ht]
      have hzX : ∀ c, c ≠ hexEncode (w.repo.sha256 x) →
          cntK (fmtv w) .xblob c
            [defaultDataEntry (xblobPath (fmtv w) (hexEncode (w.repo.sha256 x))) x,
             defaultHardlinkEntry (xlinkPath (fmtv w) cs)
               (xblobPath (fmtv w) (hexEncode (w.repo.sha256 x)))] = 0 := by
        intro c hne
        refine cntK_pair_zero ?_ (isEmissionB_hardlinkEntry _ _ _ _ _)
        rw [isEmissionB_blobEntry]
        simp [hne]
      have honeX : cntK (fmtv w) .xblob (hexEncode (w.repo.sha256 x))
            [defaultDataEntry (xblobPath (fmtv w) (hexEncode (w.repo.sha256 x))) x,
             defaultHardlinkEntry (xlinkPath (fmtv w) cs)
               (xblobPath (fmtv w) (hexEncode (w.repo.sha256 x)))] = 1 := by
        rw [cntK, List.countP_cons, List.countP_cons, List.countP_nil]
        rw [isEmissionB_blobEntry, isEmissionB_hardlinkEntry]
        simp
      refine ⟨[defaultDataEntry (xblobPath (fmtv w) (hexEncode (w.repo.sha256 x))) x,
          defaultHardlinkEntry (xlinkPath (fmtv w) cs)
            (xblobPath (fmtv w) (hexEncode (w.repo.sha256 x)))],
        ⟨rfl, ?_, ⟨rfl, rfl, rfl, rfl⟩, ?_⟩, rfl, rfl, rfl, rfl, ?_, ?_⟩
      · refine ⟨?_, ?_, ?_, ?_, ?_, ?_, ?_, ?_, ?_, ?_⟩
        · intro c hc
          show cntK (fmtv w) (.obj .DirTree) c (w.out ++ _) = 0
          rw [cntK_append, hInv.dt0 c hc, hzObj _ c (by simp)]
        · intro c
          show cntK (fmtv w) (.obj .DirTree) c (w.out ++ _) ≤ 1
          rw [cntK_append, hzObj _ c (by simp)]
          have := hInv.dt1 c
          omega
        · intro c hc
          show cntK (fmtv w) (.obj .DirMeta) c (w.out ++ _) = 0
          rw [cntK_append, hInv.dm0 c hc, hzObj _ c (by simp)]
        · intro c
          show cntK (fmtv w) (.obj .DirMeta) c (w.out ++ _) ≤ 1
          rw [cntK_append, hzObj _ c (by simp)]
          have := hInv.dm1 c
          omega
        · intro c hc
          show cntK (fmtv w) (.obj .File) c (w.out ++ _) = 0
          rw [cntK_append, hInv.ct0 c hc, hzObj _ c (by simp)]
        · intro c
          show cntK (fmtv w) (.obj .File) c (w.out ++ _) ≤ 1
          rw [cntK_append, hzObj _ c (by simp)]
          have := hInv.ct1 c
          omega
        · intro c hc
          have h1 : c ∉ w.wrote_xattrs := fun hh => hc (List.mem_cons_of_mem _ hh)
          have h2 : c ≠ hexEncode (w.repo.sha256 x) :=
            fun hh => hc (hh ▸ List.mem_cons_self _ _)
          show cntK (fmtv w) .xblob c (w.out ++ _) = 0
          rw [cntK_append, hInv.xb0 c h1, hzX c h2]
        · intro c
          show cntK (fmtv w) .xblob c (w.out ++ _) ≤ 1
          by_cases hcx : c = hexEncode (w.repo.sha256 x)
          · subst hcx
            rw [cntK_append, hInv.xb0 _ hmem, honeX]
          · rw [cntK_append, hzX c hcx]
            have := hInv.xb1 c
            omega
        · intro y hy
          rcases List.mem_cons.mp hy with hy | hy
          · subst hy
            exact ⟨defaultDataEntry (xblobPath (fmtv w) (hexEncode (w.repo.sha256 x))) x,
              by simp, isBlobB_blobEntry _ _ _⟩
          · obtain ⟨e, he, hP⟩ := hInv.blob_ex y hy
            exact ⟨e, List.mem_append_left _ he, hP⟩
        · apply XOrder_append_nofile hInv.xorder
          intro e he c
          rcases List.mem_cons.mp he with he | he
          · subst he
            exact isFileEmissionB_blobEntry _ c _ x
          · simp only [List.mem_cons, List.not_mem_nil, or_false] at he
            subst he
            exact isFileEmissionB_hardlinkEntry c _ _
      · intro e he c
        rcases List.mem_cons.mp he with he | he
        · subst he
          exact ⟨isEmissionB_obj_blobEntry (fmtv w) 0 .Commit c _ x,
            isEmissionB_obj_blobEntry (fmtv w) 0 .CommitMeta c _ x⟩
        · simp only [List.mem_cons, List.not_mem_nil, or_false] at he
          subst he
          exact ⟨isEmissionB_hardlinkEntry _ _ _ _ _, isEmissionB_hardlinkEntry _ _ _ _ _⟩
      · intro e he
        rcases List.mem_cons.mp he with he | he
        · subst he
          exact ⟨Or.inr (xblobPath_startsSysroot _ _),
            fun c => isFileEmissionB_blobEntry _ c _ x⟩
        · simp only [List.mem_cons, List.not_mem_nil, or_false] at he
          subst he
          exact ⟨Or.inr (xlinkPath_startsSysroot _ _),
            fun c => isFileEmissionB_hardlinkEntry c _ _⟩
      · intro _
        refine ⟨⟨defaultHardlinkEntry (xlinkPath (fmtv w) cs)
            (xblobPath (fmtv w) (hexEncode (w.repo.sha256 x))), by simp,
            isLinkB_hardlinkEntry _ _ _⟩,
          ⟨defaultDataEntry (xblobPath (fmtv w) (hexEncode (w.repo.sha256 x))) x,
            by simp, isBlobB_blobEntry _ _ _⟩⟩

/-! ### The content emitter specification -/

theorem isEmissionB_filePath_ne {v : Nat} {k : EmitKind} {c cs : String}
    {e : TarEntry} (hpath : e.path = object_path .File cs) (hk : k ≠ .obj .File) :
    isEmissionB v k c e = false := by
  apply isEmissionB_of_path
  rw [hpath]
  cases k with
  | obj t =>
    intro hh
    obtain ⟨h1, _⟩ := object_path_inj hh
    exact hk (by rw [h1])
  | xblob =>
    show object_path .File cs ≠ xblobPath v c
    unfold xblobPath
    split
    · exact object_path_ne_v0_xattrs _ _ _
    · exact object_path_ne_v1_xattrs _ _ _

theorem isEmissionB_filePath_other {v : Nat} {c cs : String} {e : TarEntry}
    (hpath : e.path = object_path .File cs) (hc : c ≠ cs) :
    isEmissionB v (.obj .File) c e = false := by
  apply isEmissionB_of_path
  rw [hpath]
  intro hh
  exact hc ((object_path_inj hh).2).symm

theorem isFileEmissionB_filePath {c cs : String} {e : TarEntry}
    (hpath : e.path = object_path .File cs) (hfe : isFileEmissionB c e = true) :
    c = cs := by
  simp only [isFileEmissionB, Bool.and_eq_true, beq_iff_eq] at hfe
  have h1 := hfe.1
  rw [hpath] at h1
  exact (object_path_inj h1.symm).2

theorem Inv_insert_content {w : OstreeTarWriter} (cs : String) (h : Inv w) :
    Inv { w with wrote_content := cs :: w.wrote_content } :=
  ⟨h.dt0, h.dt1, h.dm0, h.dm1,
   fun c hc => h.ct0 c (fun hmem => hc (List.mem_cons_of_mem _ hmem)),
   h.ct1, h.xb0, h.xb1, h.blob_ex, h.xorder⟩

/-- Appending the content object entry itself, after its xattrs. -/
theorem Inv_append_content_entry {w2 : OstreeTarWriter} (hInv2 : Inv w2)
    (cs : String) (eC : TarEntry)
    (hpath : eC.path = object_path .File cs)
    (htype : eC.header.entryType = .Regular ∨ eC.header.entryType = .Symlink)
    (hcnt0 : cntK (fmtv w2) (.obj .File) cs w2.out = 0)
    (hmem : cs ∈ w2.wrote_content)
    (hord : xattrCondB w2.repo (fmtv w2) cs = true →
      (∃ bl ∈ w2.out, isBlobB (fmtv w2) (xhOf w2.repo cs) bl = true) ∧
      (∃ lk ∈ w2.out, isLinkB (fmtv w2) cs lk = true)) :
    Inv { w2 with out := w2.out ++ [eC] } := by
  refine ⟨?_, ?_, ?_, ?_, ?_, ?_, ?_, ?_, ?_, ?_⟩
  · intro c hc
    show cntK (fmtv w2) (.obj .DirTree) c (w2.out ++ [eC]) = 0
    rw [cntK_append_single, hInv2.dt0 c hc,
      isEmissionB_filePath_ne hpath (by simp)]
    simp
  · intro c
    show cntK (fmtv w2) (.obj .DirTree) c (w2.out ++ [eC]) ≤ 1
    rw [cntK_append_single, isEmissionB_filePath_ne hpath (by simp)]
    have := hInv2.dt1 c
    simp
    omega
  · intro c hc
    show cntK (fmtv w2) (.obj .DirMeta) c (w2.out ++ [eC]) = 0
    rw [cntK_append_single, hInv2.dm0 c hc,
      isEmissionB_filePath_ne hpath (by simp)]
    simp
  · intro c
    show cntK (fmtv w2) (.obj .DirMeta) c (w2.out ++ [eC]) ≤ 1
    rw [cntK_append_single, isEmissionB_filePath_ne hpath (by simp)]
    have := hInv2.dm1 c
    simp
    omega
  · intro c hc
    show cntK (fmtv w2) (.obj .File) c (w2.out ++ [eC]) = 0
    have hcs : c ≠ cs := fun hh => hc (hh ▸ hmem)
    rw [cntK_append_single, hInv2.ct0 c hc, isEmissionB_filePath_other hpath hcs]
    simp
  · intro c
    show cntK (fmtv w2) (.obj .File) c (w2.out ++ [eC]) ≤ 1
    by_cases hcs : c = cs
    · subst hcs
      rw [cntK_append_single, hcnt0]
      split <;> omega
    · rw [cntK_append_single, isEmissionB_filePath_other hpath hcs]
      have := hInv2.ct1 c
      simp
      omega
  · intro x hx
    show cntK (fmtv w2) .xblob x (w2.out ++ [eC]) = 0
    rw [cntK_append_single, hInv2.xb0 x hx,
      isEmissionB_filePath_ne hpath (by simp)]
    simp
  · intro x
    show cntK (fmtv w2) .xblob x (w2.out ++ [eC]) ≤ 1
    rw [cntK_append_single, isEmissionB_filePath_ne hpath (by simp)]
    have := hInv2.xb1 x
    simp
    omega
  · intro x hx
    obtain ⟨e, he, hP⟩ := hInv2.blob_ex x hx
    exact ⟨e, List.mem_append_left _ he, hP⟩
  · apply XOrder_append hInv2.xorder
    intro l1 e l2 c heq hfe hcond
    have hl1 : l1 = [] ∧ e = eC := by
      cases l1 with
      | nil =>
        have h2 : e = eC ∧ l2 = [] := by simpa using heq.symm
        exact ⟨rfl, h2.1⟩
      | cons y ys =>
        exfalso
        have := congrArg List.length heq
        simp at this
    obtain ⟨hl1, he⟩ := hl1
    subst hl1
    subst he
    have hccs : c = cs := isFileEmissionB_filePath hpath hfe
    subst hccs
    obtain ⟨hb, hl⟩ := hord hcond
    exact ⟨by simpa using hb, by simpa using hl⟩

theorem cntK_obj_v (v v' : Nat) (t : ObjectType) (c : String) (l : List TarEntry) :
    cntK v (.obj t) c l = cntK v' (.obj t) c l := rfl

/-- Assembling the emitting branch of append_content: xattrs first, then
the content entry. -/
theorem append_content_emit_assemble {w w2 w' : OstreeTarWriter} {cs : String}
    {xa : List Nat} {i : Option (List Nat)} {meta : FileInfo} {b2 : Bool}
    (hL : w.repo.load_file cs = (i, some meta, some xa))
    (hmem : cs ∉ w.wrote_content) (hInv : Inv w)
    (hx : append_xattrs { w with wrote_content := cs :: w.wrote_content } cs xa
      = .ok (w2, b2))
    (eC : TarEntry) (hpath : eC.path = object_path .File cs)
    (htype : eC.header.entryType = .Regular ∨ eC.header.entryType = .Symlink)
    (hw' : w' = appendEntry w2 eC) :
    ∃ new, EmitsOK w w' new ∧ ∀ e ∈ new, PathOK e := by
  subst hw'
  obtain ⟨xnew, ⟨hout2, hInv2, hf2, hnc2⟩, hsdt, hsdm, hsct, hsi, hpaths, hcond⟩ :=
    append_xattrs_spec hx (Inv_insert_content cs hInv)
  have hrepo2 : w2.repo = w.repo := hf2.1
  have hv2 : fmtv w2 = fmtv w := by
    show w2.options.format_version = w.options.format_version
    rw [hf2.2.1]
  have hout2' : w2.out = w.out ++ xnew := hout2
  have hxnewF : ∀ e ∈ xnew, ∀ c, isFileEmissionB c e = false :=
    fun e he c => (hpaths e he).2 c
  have hcnt0 : cntK (fmtv w2) (.obj .File) cs w2.out = 0 := by
    rw [cntK_obj_v (fmtv w2) (fmtv w), hout2', cntK_append, hInv.ct0 cs hmem,
      cntK_eq_zero (fun e he => by
        rw [← isFileEmissionB_eq]; exact hxnewF e he cs)]
  have hmem2 : cs ∈ w2.wrote_content := by
    rw [hsct]
    exact List.mem_cons_self _ _
  have hord : xattrCondB w2.repo (fmtv w2) cs = true →
      (∃ bl ∈ w2.out, isBlobB (fmtv w2) (xhOf w2.repo cs) bl = true) ∧
      (∃ lk ∈ w2.out, isLinkB (fmtv w2) cs lk = true) := by
    intro hcondB
    rw [hrepo2, hv2] at hcondB
    have hns : ¬(xa = [] ∧
        fmtv { w with wrote_content := cs :: w.wrote_content } = 0) := by
      rintro ⟨hxa, hv0⟩
      have hv0' : fmtv w = 0 := hv0
      rw [xattrCondB, hL] at hcondB
      simp only [hxa, hv0'] at hcondB
      simp at hcondB
    obtain ⟨⟨lk, hlkmem, hlk⟩, ⟨bl, hblmem, hbl⟩⟩ := hcond hns
    refine ⟨⟨bl, hblmem, ?_⟩, ⟨lk, ?_, ?_⟩⟩
    · show isBlobB (fmtv w2) (xhOf w2.repo cs) bl = true
      rw [hv2, hrepo2, xhOf, hL]
      exact hbl
    · rw [hout2']
      exact List.mem_append_right _ hlkmem
    · rw [hv2]
      exact hlk
  refine ⟨xnew ++ [eC], ⟨?_, ?_, ?_, ?_⟩, ?_⟩
  · show w2.out ++ [eC] = w.out ++ (xnew ++ [eC])
    rw [hout2', List.append_assoc]
  · exact Inv_append_content_entry hInv2 cs eC hpath htype hcnt0 hmem2 hord
  · exact ⟨hrepo2, hf2.2.1, hf2.2.2.1, hf2.2.2.2⟩
  · intro e he
    rcases List.mem_append.mp he with he | he
    · exact hnc2 e he
    · simp only [List.mem_singleton] at he
      subst he
      exact fun c => ⟨isEmissionB_filePath_ne hpath (by simp),
        isEmissionB_filePath_ne hpath (by simp)⟩
  · intro e he
    rcases List.mem_append.mp he with he | he
    · exact (hpaths e he).1
    · simp only [List.mem_singleton] at he
      subst he
      refine Or.inr ?_
      rw [hpath]
      exact object_path_startsSysroot .File cs

theorem append_content_spec {w w' : OstreeTarWriter} {cs p : String} {hd : Header}
    (h : append_content w cs = .ok (w', p, hd)) (hInv : Inv w) :
    p = object_path .File cs ∧ hd.size = 0 ∧
    ∃ new, EmitsOK w w' new ∧ ∀ e ∈ new, PathOK e := by
  rcases hL : w.repo.load_file cs with ⟨i, m, x⟩
  unfold append_content at h
  rw [hL] at h
  cases m with
  | none => simp at h
  | some meta =>
    cases x with
    | none => simp at h
    | some xa =>
      dsimp only [] at h
      by_cases hmem : cs ∈ w.wrote_content
      · rw [if_pos hmem] at h
        obtain ⟨hw, hp, hh⟩ : w = w' ∧ object_path .File cs = p ∧
            ({ Header.new_gnu with
               uid := meta.uid
               gid := meta.gid
               mode := filter_mode w meta.mode
               size := 0 } : Header) = hd := by
          simpa using h
        subst hw
        refine ⟨hp.symm, ?_, [], EmitsOK_refl hInv, by simp⟩
        rw [← hh]
      · rw [if_neg hmem] at h
        obtain ⟨⟨w2, b2⟩, hx, hrest⟩ := exceptBind_ok h
        cases i with
        | some body =>
          dsimp only [] at hrest
          by_cases hft : meta.fileType = .Regular
          · rw [if_pos hft] at hrest
            obtain ⟨hw, hp, hh⟩ : appendEntry w2 ⟨{ Header.new_gnu with
                entryType := .Regular
                uid := meta.uid
                gid := meta.gid
                mode := filter_mode w meta.mode
                size := meta.size }, object_path .File cs, body⟩ = w' ∧
                object_path .File cs = p ∧
                ({ Header.new_gnu with
                  uid := meta.uid
                  gid := meta.gid
                  mode := filter_mode w meta.mode
                  size := 0 } : Header) = hd := by
              simpa using hrest
            refine ⟨hp.symm, by rw [← hh], ?_⟩
            exact append_content_emit_assemble hL hmem hInv hx _ rfl (Or.inl rfl)
              hw.symm
          · rw [if_neg hft] at hrest
            simp at hrest
        | none =>
          dsimp only [] at hrest
          by_cases hft : meta.fileType = .SymbolicLink
          · rw [if_pos hft] at hrest
            cases htg : meta.symlinkTarget with
            | none => rw [htg] at hrest; simp at hrest
            | some tgt =>
              rw [htg] at hrest
              dsimp only [] at hrest
              by_cases hdn : symlink_is_denormal tgt
              · rw [if_pos hdn] at hrest
                obtain ⟨hw, hp, hh⟩ : appendEntry w2 ⟨{ Header.new_gnu with
                    entryType := .Symlink
                    uid := meta.uid
                    gid := meta.gid
                    mode := filter_mode w meta.mode
                    size := 0
                    linkName := some tgt
                    linkLiteral := true }, object_path .File cs, []⟩ = w' ∧
                    object_path .File cs = p ∧
                    ({ Header.new_gnu with
                      uid := meta.uid
                      gid := meta.gid
                      mode := filter_mode w meta.mode
                      size := 0 } : Header) = hd := by
                  simpa using hrest
                refine ⟨hp.symm, by rw [← hh], ?_⟩
                exact append_content_emit_assemble hL hmem hInv hx _ rfl
                  (Or.inr rfl) hw.symm
              · rw [if_neg hdn] at hrest
                obtain ⟨hw, hp, hh⟩ : appendEntry w2 ⟨{ Header.new_gnu with
                    entryType := .Symlink
                    uid := meta.uid
                    gid := meta.gid
                    mode := filter_mode w meta.mode
                    size := 0
                    linkName := some tgt }, object_path .File cs, []⟩ = w' ∧
                    object_path .File cs = p ∧
                    ({ Header.new_gnu with
                      uid := meta.uid
                      gid := meta.gid
                      mode := filter_mode w meta.mode
                      size := 0 } : Header) = hd := by
                  simpa using hrest
                refine ⟨hp.symm, by rw [← hh], ?_⟩
                exact append_content_emit_assemble hL hmem hInv hx _ rfl
                  (Or.inr rfl) hw.symm
          · rw [if_neg hft] at hrest
            simp at hrest

/-! ### Rendered paths keep their ./ prefix through the walk -/

theorem splitSlash_ne_nil (l : List Char) : splitSlash l ≠ [] := by
  cases l with
  | nil => simp [splitSlash]
  | cons c rest =>
    unfold splitSlash
    rcases hs : splitSlash rest with _ | ⟨p, ps⟩
    · simp
    · dsimp only []
      split <;> simp

theorem splitSlash_no_slash : ∀ (l : List Char) (piece : List Char),
    piece ∈ splitSlash l → '/' ∉ piece := by
  intro l
  induction l with
  | nil =>
    intro piece hp
    simp [splitSlash] at hp
    simp [hp]
  | cons c rest ih =>
    intro piece hp
    unfold splitSlash at hp
    rcases hs : splitSlash rest with _ | ⟨p, ps⟩
    · exact absurd hs (splitSlash_ne_nil rest)
    · rw [hs] at hp
      dsimp only [] at hp
      by_cases hc : c = '/'
      · rw [if_pos hc] at hp
        rcases List.mem_cons.mp hp with hp | hp
        · simp [hp]
        · exact ih piece (hs ▸ hp)
      · rw [if_neg hc] at hp
        rcases List.mem_cons.mp hp with hp | hp
        · subst hp
          intro hmem
          rcases List.mem_cons.mp hmem with hmem | hmem
          · exact hc hmem.symm
          · exact ih p (hs ▸ List.mem_cons_self p ps) hmem
        · exact ih piece (hs ▸ List.mem_cons_of_mem p hp)

/-- A component that renders to a non-empty slash-free piece. -/
def goodComp (c : Component) : Prop :=
  c = .curDir ∨ ∃ t : String, c = .normal t ∧ t.data ≠ [] ∧ '/' ∉ t.data

/-- The component list of a path is a front part of length at most one
followed by good components. -/
theorem parse_shape (s : String) : ∃ pre normals,
    parseComponents s = pre ++ normals ∧ pre.length ≤ 1 ∧
      ∀ c ∈ normals, goodComp c := by
  unfold parseComponents
  refine ⟨(if strStartsWith s "/" then [.rootDir] else []) ++
    (if strStartsWith s "/" then []
     else if s = "." ∨ strStartsWith s "./" then [.curDir] else []), _,
    by rw [List.append_assoc], ?_, ?_⟩
  · by_cases h1 : strStartsWith s "/" <;> simp [h1] <;> split <;> simp
  · intro c hc
    obtain ⟨p, hp, hpc⟩ := List.mem_map.mp hc
    subst hpc
    have hfil := (List.mem_filter.mp hp).2
    simp only [decide_eq_true_eq] at hfil
    refine Or.inr ⟨⟨p⟩, rfl, hfil.1, ?_⟩
    exact splitSlash_no_slash s.data p (List.mem_filter.mp hp).1

theorem goodComp_piece_no_slash {c : Component} (h : goodComp c) :
    (componentPiece c).data ≠ [] ∧ '/' ∉ (componentPiece c).data := by
  rcases h with h | ⟨t, ht, h1, h2⟩
  · subst h
    refine ⟨by decide, by decide⟩
  · subst ht
    exact ⟨h1, h2⟩

theorem renderRel_no_root : ∀ (cs : List Component),
    (∀ c ∈ cs, goodComp c) → strStartsWith (renderRel cs) "/" = false := by
  intro cs hgood
  match cs with
  | [] => decide
  | [c] =>
    obtain ⟨h1, h2⟩ := goodComp_piece_no_slash (hgood c (by simp))
    show strStartsWith (componentPiece c) "/" = false
    unfold strStartsWith
    rcases hd : (componentPiece c).data with _ | ⟨ch, rest⟩
    · exact absurd hd h1
    · have hch : ('/' == ch) = false := by
        simp only [beq_eq_false_iff_ne]
        exact fun hh => h2 (hd ▸ hh ▸ List.mem_cons_self _ _)
      simp [List.isPrefixOf, hch]
  | c :: c2 :: rest =>
    obtain ⟨h1, h2⟩ := goodComp_piece_no_slash (hgood c (by simp))
    show strStartsWith (componentPiece c ++ "/" ++ renderRel (c2 :: rest)) "/" = false
    unfold strStartsWith
    rw [String.data_append, String.data_append]
    rcases hd : (componentPiece c).data with _ | ⟨ch, rest2⟩
    · exact absurd hd h1
    · have hch : ('/' == ch) = false := by
        simp only [beq_eq_false_iff_ne]
        exact fun hh => h2 (hd ▸ hh ▸ List.mem_cons_self _ _)
      simp [List.isPrefixOf, hch]

/-- The remainder of a non-trivial component strip never starts with a
slash. -/
theorem pathStrip_no_root {q p r : String} (h : pathStrip q p = some r)
    (hq : 1 ≤ (parseComponents q).length) : strStartsWith r "/" = false := by
  unfold pathStrip at h
  split at h
  · obtain ⟨pre, normals, hshape, hlen, hgood⟩ := parse_shape p
    have hr : r = renderComponents
        ((parseComponents p).drop (parseComponents q).length) := by
      simpa using h.symm
    subst hr
    rw [hshape, List.drop_append_eq_append_drop]
    have hpre : pre.drop (parseComponents q).length = [] := by
      apply List.drop_eq_nil_of_le
      omega
    rw [hpre, List.nil_append]
    have hgood2 : ∀ c ∈ normals.drop ((parseComponents q).length - pre.length),
        goodComp c := fun c hc => hgood c (List.mem_of_mem_drop hc)
    rcases hd : normals.drop ((parseComponents q).length - pre.length) with _ | ⟨c0, crest⟩
    · decide
    · have hc0 : goodComp c0 := hgood2 c0 (hd ▸ List.mem_cons_self _ _)
      have hnr : c0 ≠ .rootDir := by
        intro hh
        rcases hc0 with hc0 | ⟨u, hu, _⟩
        · exact absurd (hh ▸ hc0) (by simp)
        · exact absurd (hh ▸ hu) (by simp)
      show strStartsWith (renderComponents (c0 :: crest)) "/" = false
      have : renderComponents (c0 :: crest) = renderRel (c0 :: crest) := by
        unfold renderComponents
        rcases c0 with _ | _ | t
        · rfl
        · exact absurd rfl hnr
        · rfl
      rw [this]
      exact renderRel_no_root _ (hd ▸ hgood2)
  · exact absurd h (by simp)

theorem strStartsWith_ne_empty {s pre : String}
    (h : strStartsWith s pre = true) (hpre : pre.data ≠ []) : s ≠ "" := by
  intro hs
  subst hs
  unfold strStartsWith at h
  rcases hd : pre.data with _ | ⟨c, rest⟩
  · exact hpre hd
  · rw [hd] at h
    simp [List.isPrefixOf] at h

theorem pathJoin_keeps_dot {d n : String} (hd : strStartsWith d "./" = true)
    (hn : strStartsWith n "/" = false) :
    strStartsWith (pathJoin d n) "./" = true := by
  unfold pathJoin
  rw [hn]
  simp only [Bool.false_eq_true, if_false]
  rw [if_neg (strStartsWith_ne_empty hd (by decide))]
  split
  · exact strStartsWith_append d n _ hd
  · exact strStartsWith_append _ n _ (strStartsWith_append d "/" _ hd)

theorem map_path_keeps_dot {p : String} (hp : strStartsWith p "./" = true) :
    strStartsWith (map_path p) "./" = true := by
  unfold map_path
  rcases hs : pathStrip "./usr/etc" p with _ | r
  · exact hp
  · have hr : strStartsWith r "/" = false :=
      pathStrip_no_root hs (by decide)
    exact pathJoin_keeps_dot (by decide) hr

/-! ### The directory, hardlink and commit-object steps -/

/-- The entry append_dir emits. -/
def dirEntryOf (w : OstreeTarWriter) (dirpath : String) (meta : DirMetaObj) :
    TarEntry :=
  ⟨{ Header.new_gnu with
     entryType := .Directory
     size := 0
     uid := meta.uid
     gid := meta.gid
     mode := filter_mode w meta.mode }, dirpath, []⟩

theorem append_dir_spec (w : OstreeTarWriter) (dirpath : String)
    (meta : DirMetaObj) (hInv : Inv w) :
    EmitsOK w (append_dir w dirpath meta) [dirEntryOf w dirpath meta] ∧
      (append_dir w dirpath meta).wrote_initdirs = w.wrote_initdirs := by
  refine ⟨⟨rfl, ?_, ⟨rfl, rfl, rfl, rfl⟩, ?_⟩, rfl⟩
  · exact Inv_append_neutral hInv _ (fun e he => by
      simp only [List.mem_singleton] at he
      subst he
      exact fun c => ⟨isEmissionB_of_directory rfl _ _ _,
        isEmissionB_of_directory rfl _ _ _, isEmissionB_of_directory rfl _ _ _,
        isEmissionB_of_directory rfl _ _ _⟩)
  · intro e he
    simp only [List.mem_singleton] at he
    subst he
    exact fun c => ⟨isEmissionB_of_directory rfl _ _ _,
      isEmissionB_of_directory rfl _ _ _⟩

theorem dirEntryOf_not_file (w : OstreeTarWriter) (dirpath : String)
    (meta : DirMetaObj) (c : String) :
    isFileEmissionB c (dirEntryOf w dirpath meta) = false := by
  rw [isFileEmissionB_eq 0]
  exact isEmissionB_of_directory rfl _ _ _

/-- The entry append_content_hardlink emits. -/
def linkEntryOf (srcpath : String) (h : Header) (dest : String) : TarEntry :=
  ⟨{ h with entryType := .Link, linkName := some srcpath }, dest, []⟩

theorem append_content_hardlink_spec (w : OstreeTarWriter) (srcpath : String)
    (h : Header) (dest : String) (hInv : Inv w) :
    EmitsOK w (append_content_hardlink w srcpath h dest)
      [linkEntryOf srcpath h dest] := by
  refine ⟨rfl, ?_, ⟨rfl, rfl, rfl, rfl⟩, ?_⟩
  · exact Inv_append_neutral hInv _ (fun e he => by
      simp only [List.mem_singleton] at he
      subst he
      exact fun c => ⟨isEmissionB_of_link rfl _ _ _,
        isEmissionB_of_link rfl _ _ _, isEmissionB_of_link rfl _ _ _,
        isEmissionB_of_link rfl _ _ _⟩)
  · intro e he
    simp only [List.mem_singleton] at he
    subst he
    exact fun c => ⟨isEmissionB_of_link rfl _ _ _, isEmissionB_of_link rfl _ _ _⟩

theorem linkEntryOf_header (srcpath : String) (h : Header) (dest : String) :
    (linkEntryOf srcpath h dest).header.uid = h.uid ∧
      (linkEntryOf srcpath h dest).header.gid = h.gid ∧
      (linkEntryOf srcpath h dest).header.entryType = .Link := ⟨rfl, rfl, rfl⟩

/-- append_commit_object emits the Commit object at its canonical path,
then the CommitMeta object when detached metadata exists; each kind is
emitted at most once by this step, and nothing it emits is a content
(File-kind) emission. -/
theorem append_commit_object_spec {w w' : OstreeTarWriter}
    (h : append_commit_object w = .ok w') (hInv : Inv w) :
    ∃ new, w'.out = w.out ++ new ∧ Inv w' ∧ Frame w w' ∧
      (∀ e ∈ new, PathOK e ∧ (∀ c, isFileEmissionB c e = false)) ∧
      (∀ k c, cntK (fmtv w) k c new ≤ 1) := by
  unfold append_commit_object at h
  obtain ⟨w1, h1, hrest⟩ := exceptBind_ok h
  obtain ⟨hw1, hInv1, hfr1, hchar1⟩ :=
    append_CommitLike_spec (Or.inl rfl) h1 hInv
  have hck : w1.commit_checksum = w.commit_checksum := hfr1.2.2.1
  have hrepo : w1.repo = w.repo := hfr1.1
  rcases hM : w1.repo.read_commit_detached_metadata w1.commit_checksum with
    _ | cm
  · rw [hM] at hrest
    have hw' : w' = w1 := by simpa using hrest.symm
    subst hw'
    refine ⟨[defaultDataEntry (object_path .Commit w.commit_checksum)
        w.commit_object.data], by rw [hw1], hInv1, hfr1, ?_, ?_⟩
    · intro e he
      simp only [List.mem_singleton] at he
      subst he
      refine ⟨Or.inr (object_path_startsSysroot _ _), fun c => ?_⟩
      rw [isFileEmissionB_eq 0, isEmissionB_objEntry]
      simp
    · intro k c
      rw [cntK_singleton]
      split <;> omega
  · rw [hM] at hrest
    obtain ⟨hw2, hInv2, hfr2, hchar2⟩ :=
      append_CommitLike_spec (Or.inr rfl) hrest hInv1
    refine ⟨[defaultDataEntry (object_path .Commit w.commit_checksum)
        w.commit_object.data,
      defaultDataEntry (object_path .CommitMeta w.commit_checksum) cm],
      ?_, hInv2, Frame.trans hfr1 hfr2, ?_, ?_⟩
    · have hout2 : w'.out = w1.out ++
          [defaultDataEntry (object_path .CommitMeta w1.commit_checksum) cm] := by
        rw [hw2]
      have hout1 : w1.out = w.out ++
          [defaultDataEntry (object_path .Commit w.commit_checksum)
            w.commit_object.data] := by
        rw [hw1]
      rw [hout2, hout1, hck]
      simp
    · intro e he
      simp only [List.mem_cons, List.mem_singleton, List.not_mem_nil,
        or_false] at he
      rcases he with he | he <;> subst he <;>
        refine ⟨Or.inr (object_path_startsSysroot _ _), fun c => ?_⟩ <;>
        (rw [isFileEmissionB_eq 0, isEmissionB_objEntry]; simp)
    · intro k c
      have hcnt : cntK (fmtv w) k c
          [defaultDataEntry (object_path .Commit w.commit_checksum)
            w.commit_object.data,
           defaultDataEntry (object_path .CommitMeta w.commit_checksum) cm] =
          (if (k == .obj .Commit && c == w.commit_checksum) then 1 else 0) +
          (if (k == .obj .CommitMeta && c == w.commit_checksum) then 1 else 0) := by
        simp only [cntK, List.countP_cons, List.countP_nil, isEmissionB_objEntry]
        split <;> split <;> simp
      rw [hcnt]
      by_cases hk1 : (k == EmitKind.obj .Commit && c == w.commit_checksum) = true
      · have hk2 : (k == EmitKind.obj .CommitMeta && c == w.commit_checksum) = false := by
          simp only [Bool.and_eq_true, beq_iff_eq] at hk1
          simp [hk1.1]
        rw [if_pos hk1, if_neg (by simp [hk2])]
      · rw [if_neg hk1]
        split <;> omega

/-- OstreeTarWriter::new yields a fresh writer: empty output, empty dedup
sets, the requested options, and the invariant holds vacuously. -/
theorem OstreeTarWriter_new_spec {repo : Repo} {cs : String}
    {opts : ExportOptions} {w : OstreeTarWriter}
    (h : OstreeTarWriter.new repo cs opts = .ok w) :
    w.out = [] ∧ Inv w ∧ w.repo = repo ∧ w.options = opts ∧
      w.wrote_initdirs = false ∧ w.commit_checksum = cs := by
  unfold OstreeTarWriter.new at h
  by_cases hv : formatVersionAllowed opts.format_version
  · rw [if_pos hv] at h
    rcases hc : repo.load_commit cs with _ | co
    · rw [hc] at h
      exact absurd h (by simp)
    · rw [hc] at h
      dsimp only [] at h
      injection h with h2
      subst h2
      refine ⟨rfl, ?_, rfl, rfl, rfl, rfl⟩
      refine ⟨?_, ?_, ?_, ?_, ?_, ?_, ?_, ?_, ?_, ?_⟩ <;>
        first
        | (intro x hx; exact absurd hx (List.not_mem_nil x))
        | (intro c hc2; simp [cntK])
        | (intro c; show cntK _ _ _ [] ≤ 1; simp [cntK])
        | (intro l1 e l2 c heq hfe hcond; exact absurd heq (by simp))
  · rw [if_neg hv] at h
    exact absurd h (by simp)

/-! ### The dirtree walk -/

/-- The files loop: every iteration emits one content object (with its
xattrs) and one hardlink at the rendered path. -/
theorem append_dirtree_files_spec :
    ∀ (fs : List (String × List Nat)) (dirpath : String)
      {w w' : OstreeTarWriter},
      append_dirtree_files w dirpath fs = .ok w' → Inv w →
      ∃ new, EmitsOK w w' new ∧
        (strStartsWith dirpath "./" = true →
          (∀ p ∈ fs, strStartsWith p.1 "/" = false) →
          ∀ e ∈ new, PathOK e) := by
  intro fs
  induction fs with
  | nil =>
    intro dirpath w w' h hInv
    have hw : w = w' := by simpa [append_dirtree_files] using h
    subst hw
    exact ⟨[], EmitsOK_refl hInv, fun _ _ e he => absurd he (List.not_mem_nil e)⟩
  | cons f rest ih =>
    intro dirpath w w' h hInv
    rcases f with ⟨nm, csum⟩
    unfold append_dirtree_files at h
    obtain ⟨⟨w1, objpath, hd⟩, h1, hrest⟩ := exceptBind_ok h
    dsimp only [] at hrest
    obtain ⟨hpath, _, new1, hE1, hP1⟩ := append_content_spec h1 hInv
    have hE2 := append_content_hardlink_spec w1 objpath hd
      (map_path (pathJoin dirpath nm)) hE1.2.1
    obtain ⟨new3, hE3, hP3⟩ := ih dirpath hrest hE2.2.1
    refine ⟨new1 ++ [linkEntryOf objpath hd (map_path (pathJoin dirpath nm))]
      ++ new3, EmitsOK_trans (EmitsOK_trans hE1 hE2) hE3, ?_⟩
    intro hdp hnames e he
    rcases List.mem_append.mp he with he | he
    · rcases List.mem_append.mp he with he | he
      · exact hP1 e he
      · simp only [List.mem_singleton] at he
        subst he
        refine Or.inl ?_
        show strStartsWith (map_path (pathJoin dirpath nm)) "./" = true
        exact map_path_keeps_dot (pathJoin_keeps_dot hdp
          (hnames (nm, csum) (List.mem_cons_self _ _)))
    · exact hP3 hdp (fun p hp => hnames p (List.mem_cons_of_mem _ hp)) e he

/-- The mutual walk: append_dirtree and its subdirectory loop preserve the
invariant, only append to the stream, never emit a commit-kind entry, and
(over a well-formed repository, from a dot-prefixed directory) place every
new entry under ./ or under sysroot. -/
theorem walk_spec : ∀ fuel : Nat,
    (∀ (dirpath cs : String) (is_root : Bool) (w w' : OstreeTarWriter),
      append_dirtree w dirpath cs is_root fuel = .ok w' → Inv w →
      ∃ new, EmitsOK w w' new ∧
        (RepoWF w.repo → strStartsWith dirpath "./" = true →
          ∀ e ∈ new, PathOK e)) ∧
    (∀ (ds : List (String × List Nat × List Nat)) (dirpath : String)
      (is_root : Bool) (w w' : OstreeTarWriter),
      append_dirtree_dirs w dirpath ds is_root fuel = .ok w' → Inv w →
      ∃ new, EmitsOK w w' new ∧
        (RepoWF w.repo → strStartsWith dirpath "./" = true →
          (∀ p ∈ ds, strStartsWith p.1 "/" = false) →
          ∀ e ∈ new, PathOK e)) := by
  have hdirs : ∀ fuel : Nat,
      (∀ (dirpath cs : String) (is_root : Bool) (w w' : OstreeTarWriter),
        append_dirtree w dirpath cs is_root fuel = .ok w' → Inv w →
        ∃ new, EmitsOK w w' new ∧
          (RepoWF w.repo → strStartsWith dirpath "./" = true →
            ∀ e ∈ new, PathOK e)) →
      (∀ (ds : List (String × List Nat × List Nat)) (dirpath : String)
        (is_root : Bool) (w w' : OstreeTarWriter),
        append_dirtree_dirs w dirpath ds is_root fuel = .ok w' → Inv w →
        ∃ new, EmitsOK w w' new ∧
          (RepoWF w.repo → strStartsWith dirpath "./" = true →
            (∀ p ∈ ds, strStartsWith p.1 "/" = false) →
            ∀ e ∈ new, PathOK e)) := by
    intro fuel htree ds
    induction ds with
    | nil =>
      intro dirpath is_root w w' h hInv
      have hw : w = w' := by simpa [append_dirtree_dirs, walk_dirs] using h
      subst hw
      exact ⟨[], EmitsOK_refl hInv,
        fun _ _ _ e he => absurd he (List.not_mem_nil e)⟩
    | cons d rest ih =>
      intro dirpath is_root w w' h hInv
      rcases d with ⟨nm, ccs, mcs⟩
      unfold append_dirtree_dirs walk_dirs at h
      obtain ⟨meta_v, hmv0, h2⟩ := exceptBind_ok h
      have hmv : w.repo.load_variant_dirmeta (hexEncode mcs) = some meta_v :=
        ofOption_ok hmv0
      obtain ⟨w1, hap, h3⟩ := exceptBind_ok h2
      obtain ⟨new1, hE1, hP1⟩ := append_DirMeta_spec hap hInv
      by_cases hroot : is_root = true ∧ nm = SYSROOT
      · rw [if_pos hroot] at h3
        obtain ⟨new2, hE2, hP2⟩ := ih dirpath is_root w1 w' h3 hE1.2.1
        refine ⟨new1 ++ new2, EmitsOK_trans hE1 hE2, ?_⟩
        intro hwf hdp hnames e he
        rcases List.mem_append.mp he with he | he
        · exact (hP1 e he).1
        · refine hP2 ?_ hdp (fun p hp => hnames p (List.mem_cons_of_mem _ hp))
            e he
          rw [hE1.2.2.1.1]
          exact hwf
      · rw [if_neg hroot] at h3
        dsimp only [] at h3
        obtain ⟨w3, htr, h4⟩ := exceptBind_ok h3
        have hdir := append_dir_spec w1 (map_path (pathJoin dirpath nm)) meta_v
          hE1.2.1
        obtain ⟨new3, hE3, hP3⟩ := (htree (map_path (pathJoin dirpath nm))
          (hexEncode ccs) false _ w3 htr hdir.1.2.1)
        obtain ⟨new4, hE4, hP4⟩ := ih dirpath is_root w3 w' h4 hE3.2.1
        refine ⟨new1 ++ [dirEntryOf w1 (map_path (pathJoin dirpath nm)) meta_v]
          ++ new3 ++ new4,
          EmitsOK_trans (EmitsOK_trans (EmitsOK_trans hE1 hdir.1) hE3) hE4, ?_⟩
        intro hwf hdp hnames e he
        have hname1 : strStartsWith nm "/" = false :=
          hnames (nm, ccs, mcs) (List.mem_cons_self _ _)
        have hsub : strStartsWith (map_path (pathJoin dirpath nm)) "./" = true :=
          map_path_keeps_dot (pathJoin_keeps_dot hdp hname1)
        rcases List.mem_append.mp he with he | he
        · rcases List.mem_append.mp he with he | he
          · rcases List.mem_append.mp he with he | he
            · exact (hP1 e he).1
            · simp only [List.mem_singleton] at he
              subst he
              exact Or.inl hsub
          · refine hP3 ?_ hsub e he
            have : (append_dir w1 (map_path (pathJoin dirpath nm))
                meta_v).repo = w.repo := by
              rw [hdir.1.2.2.1.1, hE1.2.2.1.1]
            rw [this]
            exact hwf
        · refine hP4 ?_ hdp (fun p hp => hnames p (List.mem_cons_of_mem _ hp))
            e he
          have : w3.repo = w.repo := by
            rw [hE3.2.2.1.1, hdir.1.2.2.1.1, hE1.2.2.1.1]
          rw [this]
          exact hwf
  intro fuel
  induction fuel with
  | zero =>
    refine ⟨?_, ?_⟩
    · intro dirpath cs is_root w w' h hInv
      exact absurd h (by simp [append_dirtree])
    · exact hdirs 0 (fun dirpath cs is_root w w' h hInv =>
        absurd h (by simp [append_dirtree]))
  | succ n ihn =>
    have htree : ∀ (dirpath cs : String) (is_root : Bool)
        (w w' : OstreeTarWriter),
        append_dirtree w dirpath cs is_root (n + 1) = .ok w' → Inv w →
        ∃ new, EmitsOK w w' new ∧
          (RepoWF w.repo → strStartsWith dirpath "./" = true →
            ∀ e ∈ new, PathOK e) := by
      intro dirpath cs is_root w w' h hInv
      unfold append_dirtree at h
      obtain ⟨v, hv0, h2⟩ := exceptBind_ok h
      have hv : w.repo.load_variant_dirtree cs = some v := ofOption_ok hv0
      obtain ⟨w1, hap, h3⟩ := exceptBind_ok h2
      obtain ⟨new1, hE1, hP1⟩ := append_DirTree_spec hap hInv
      obtain ⟨w2, hfl, h4⟩ := exceptBind_ok h3
      obtain ⟨new2, hE2, hP2⟩ :=
        append_dirtree_files_spec v.files dirpath hfl hE1.2.1
      obtain ⟨new3, hE3, hP3⟩ := ihn.2 v.dirs dirpath is_root w2 w' h4 hE2.2.1
      refine ⟨new1 ++ new2 ++ new3,
        EmitsOK_trans (EmitsOK_trans hE1 hE2) hE3, ?_⟩
      intro hwf hdp e he
      rcases List.mem_append.mp he with he | he
      · rcases List.mem_append.mp he with he | he
        · exact (hP1 e he).1
        · exact hP2 hdp (hwf cs v hv).1 e he
      · refine hP3 ?_ hdp ?_ e he
        · have : w2.repo = w.repo := by rw [hE2.2.2.1.1, hE1.2.2.1.1]
          rw [this]
          exact hwf
        · exact (hwf cs v hv).2
    exact ⟨htree, hdirs (n + 1) htree⟩

/-! ### The drivers -/

/-- write_commit: the full-export body preserves the invariant, emits the
Commit and CommitMeta kinds at most once, and over a well-formed
repository places every emitted entry under ./ or under sysroot. -/
theorem write_commit_spec {w w' : OstreeTarWriter} {fuel : Nat}
    (h : write_commit w fuel = .ok w') (hInv : Inv w) :
    ∃ new, w'.out = w.out ++ new ∧ Inv w' ∧ Frame w w' ∧
      (∀ c, cntK (fmtv w) (.obj .Commit) c new ≤ 1 ∧
        cntK (fmtv w) (.obj .CommitMeta) c new ≤ 1) ∧
      (RepoWF w.repo → ∀ e ∈ new, PathOK e) := by
  unfold write_commit at h
  obtain ⟨metadata_v, hmv0, h2⟩ := exceptBind_ok h
  dsimp only [] at h2
  obtain ⟨w2, hscaf, h3⟩ := exceptBind_ok h2
  obtain ⟨w3, hcmt, h4⟩ := exceptBind_ok h3
  obtain ⟨w4, hdm, h5⟩ := exceptBind_ok h4
  have hdir := append_dir_spec w TAR_PATH_PREFIX_V0 metadata_v hInv
  obtain ⟨n2, hE2, _, _, _, _, _, _, _, hP2⟩ :=
    write_repo_structure_spec hscaf hdir.1.2.1
  obtain ⟨n3, ho3, hInv3, hfr3, hP3, hC3⟩ :=
    append_commit_object_spec hcmt hE2.2.1
  obtain ⟨n4, hE4, hP4⟩ := append_DirMeta_spec hdm hInv3
  obtain ⟨n5, hE5, hP5⟩ := (walk_spec fuel).1 TAR_PATH_PREFIX_V0
    (hexEncode w.commit_object.contents_csum) true w4 w' h5 hE4.2.1
  have hfrA : Frame w (append_dir w TAR_PATH_PREFIX_V0 metadata_v) :=
    hdir.1.2.2.1
  have hfr2 : Frame w w2 := Frame.trans hfrA hE2.2.2.1
  have hfr3' : Frame w w3 := Frame.trans hfr2 hfr3
  have hfr4 : Frame w w4 := Frame.trans hfr3' hE4.2.2.1
  have hfr5 : Frame w w' := Frame.trans hfr4 hE5.2.2.1
  refine ⟨[dirEntryOf w TAR_PATH_PREFIX_V0 metadata_v] ++ n2 ++ n3 ++ n4 ++ n5,
    ?_, hE5.2.1, hfr5, ?_, ?_⟩
  · rw [hE5.1, hE4.1, ho3, hE2.1]
    have hA : (append_dir w TAR_PATH_PREFIX_V0 metadata_v).out =
        w.out ++ [dirEntryOf w TAR_PATH_PREFIX_V0 metadata_v] := rfl
    rw [hA]
    simp [List.append_assoc]
  · intro c
    have hz1 : ∀ t, cntK (fmtv w) (.obj t) c
        [dirEntryOf w TAR_PATH_PREFIX_V0 metadata_v] = 0 := fun t =>
      cntK_eq_zero (fun e he => by
        simp only [List.mem_singleton] at he
        subst he
        exact isEmissionB_of_directory rfl _ _ _)
    have hz2 : ∀ t, t = ObjectType.Commit ∨ t = ObjectType.CommitMeta →
        cntK (fmtv w) (.obj t) c n2 = 0 := fun t ht =>
      cntK_eq_zero (fun e he => by
        rw [isEmissionB_obj_v]
        rcases ht with ht | ht <;> subst ht
        · exact (hE2.2.2.2 e he c).1
        · exact (hE2.2.2.2 e he c).2)
    have hz4 : ∀ t, t = ObjectType.Commit ∨ t = ObjectType.CommitMeta →
        cntK (fmtv w) (.obj t) c n4 = 0 := fun t ht =>
      cntK_eq_zero (fun e he => by
        rw [isEmissionB_obj_v]
        rcases ht with ht | ht <;> subst ht
        · exact (hE4.2.2.2 e he c).1
        · exact (hE4.2.2.2 e he c).2)
    have hz5 : ∀ t, t = ObjectType.Commit ∨ t = ObjectType.CommitMeta →
        cntK (fmtv w) (.obj t) c n5 = 0 := fun t ht =>
      cntK_eq_zero (fun e he => by
        rw [isEmissionB_obj_v]
        rcases ht with ht | ht <;> subst ht
        · exact (hE5.2.2.2 e he c).1
        · exact (hE5.2.2.2 e he c).2)
    have hc3a : cntK (fmtv w) (.obj .Commit) c n3 ≤ 1 := by
      rw [cntK_obj_v (fmtv w) (fmtv w2)]
      exact hC3 (.obj .Commit) c
    have hc3b : cntK (fmtv w) (.obj .CommitMeta) c n3 ≤ 1 := by
      rw [cntK_obj_v (fmtv w) (fmtv w2)]
      exact hC3 (.obj .CommitMeta) c
    constructor <;>
      (simp only [cntK_append]
       first
       | (rw [hz1 .Commit, hz2 .Commit (Or.inl rfl), hz4 .Commit (Or.inl rfl),
            hz5 .Commit (Or.inl rfl)]
          omega)
       | (rw [hz1 .CommitMeta, hz2 .CommitMeta (Or.inr rfl),
            hz4 .CommitMeta (Or.inr rfl), hz5 .CommitMeta (Or.inr rfl)]
          omega))
  · intro hwf e he
    rcases List.mem_append.mp he with he | he
    · rcases List.mem_append.mp he with he | he
      · rcases List.mem_append.mp he with he | he
        · rcases List.mem_append.mp he with he | he
          · simp only [List.mem_singleton] at he
            subst he
            refine Or.inl ?_
            show strStartsWith TAR_PATH_PREFIX_V0 "./" = true
            decide
          · exact (hP2 e he).1
        · exact (hP3 e he).1
      · exact (hP4 e he).1
    · refine hP5 ?_ (by decide) e he
      rw [hfr4.1]
      exact hwf

/-- impl_export: the dedup invariant and the ordering invariant of the
final writer, read back on the produced stream. -/
theorem impl_export_spec {repo : Repo} {cs : String} {opts : ExportOptions}
    {fuel : Nat} {out : List TarEntry}
    (h : impl_export repo cs opts fuel = .ok out) :
    (∀ t c, cntK opts.format_version (.obj t) c out ≤ 1) ∧
      (∀ x, cntK opts.format_version .xblob x out ≤ 1) ∧
      XOrder opts.format_version repo out ∧
      (RepoWF repo → ∀ e ∈ out, PathOK e) := by
  unfold impl_export at h
  obtain ⟨w0, hnew, h2⟩ := exceptBind_ok h
  obtain ⟨w1, hwc, h3⟩ := exceptBind_ok h2
  have hout : out = w1.out := by simpa using h3.symm
  obtain ⟨hout0, hInv0, hrepo0, hopts0, hinit0, hck0⟩ :=
    OstreeTarWriter_new_spec hnew
  obtain ⟨new, ho, hInv1, hfr, hcnt, hP⟩ := write_commit_spec hwc hInv0
  have houtN : out = new := by rw [hout, ho, hout0, List.nil_append]
  have hv1 : fmtv w1 = opts.format_version := by
    rw [fmtv, hfr.2.1, hopts0]
  have hv0 : fmtv w0 = opts.format_version := by rw [fmtv, hopts0]
  have hrepo1 : w1.repo = repo := by rw [hfr.1, hrepo0]
  refine ⟨?_, ?_, ?_, ?_⟩
  · intro t c
    rcases t with _ | _ | _ | _ | _
    · rw [houtN, ← hv0]
      exact (hcnt c).1
    · rw [houtN, ← hv0]
      exact (hcnt c).2
    · have := hInv1.dt1 c
      rw [hv1, ← hout] at this
      exact this
    · have := hInv1.dm1 c
      rw [hv1, ← hout] at this
      exact this
    · have := hInv1.ct1 c
      rw [hv1, ← hout] at this
      exact this
  · intro x
    have := hInv1.xb1 x
    rw [hv1, ← hout] at this
    exact this
  · have := hInv1.xorder
    rw [hv1, hrepo1, ← hout] at this
    exact this
  · intro hwf e he
    refine hP ?_ e (by rw [← houtN]; exact he)
    rw [hrepo0]
    exact hwf

/-- export_commit: resolve the rev, then impl_export with the given or
default options. -/
theorem export_commit_spec {repo : Repo} {rev : String}
    {options : Option ExportOptions} {fuel : Nat} {out : List TarEntry}
    (h : export_commit repo rev options fuel = .ok out) :
    (∀ t c, cntK (options.getD ExportOptions.default).format_version
        (.obj t) c out ≤ 1) ∧
      (∀ x, cntK (options.getD ExportOptions.default).format_version
        .xblob x out ≤ 1) ∧
      XOrder (options.getD ExportOptions.default).format_version repo out ∧
      (RepoWF repo → ∀ e ∈ out, PathOK e) := by
  unfold export_commit at h
  obtain ⟨commit, hrev, h2⟩ := exceptBind_ok h
  exact impl_export_spec h2

/-- The hardlink loop of write_chunk. -/
theorem write_chunk_paths_spec :
    ∀ (ps : List String) (objpath : String) (hd : Header)
      {w w' : OstreeTarWriter},
      write_chunk_paths w objpath hd ps = .ok w' → Inv w →
      ∃ new, EmitsOK w w' new := by
  intro ps
  induction ps with
  | nil =>
    intro objpath hd w w' h hInv
    have hw : w = w' := by simpa [write_chunk_paths] using h
    subst hw
    exact ⟨[], EmitsOK_refl hInv⟩
  | cons p rest ih =>
    intro objpath hd w w' h hInv
    unfold write_chunk_paths at h
    obtain ⟨p1, hp1, hrest⟩ := exceptBind_ok h
    have hE1 := append_content_hardlink_spec w objpath hd p1 hInv
    obtain ⟨new2, hE2⟩ := ih objpath hd hrest hE1.2.1
    exact ⟨_ ++ new2, EmitsOK_trans hE1 hE2⟩

/-- write_chunk: one content object and its hardlinks per mapping line. -/
theorem write_chunk_spec :
    ∀ (chunk : ChunkMapping) {w w' : OstreeTarWriter},
      write_chunk w chunk = .ok w' → Inv w →
      ∃ new, EmitsOK w w' new := by
  intro chunk
  induction chunk with
  | nil =>
    intro w w' h hInv
    have hw : w = w' := by simpa [write_chunk] using h
    subst hw
    exact ⟨[], EmitsOK_refl hInv⟩
  | cons line rest ih =>
    intro w w' h hInv
    rcases line with ⟨cs, sz, paths⟩
    unfold write_chunk at h
    obtain ⟨⟨w1, objpath, hd⟩, h1, hrest⟩ := exceptBind_ok h
    dsimp only [] at hrest
    obtain ⟨w2, h2, h3⟩ := exceptBind_ok hrest
    obtain ⟨_, _, new1, hE1, _⟩ := append_content_spec h1 hInv
    obtain ⟨new2, hE2⟩ := write_chunk_paths_spec paths objpath hd h2 hE1.2.1
    obtain ⟨new3, hE3⟩ := ih h3 hE2.2.1
    exact ⟨new1 ++ new2 ++ new3,
      EmitsOK_trans (EmitsOK_trans hE1 hE2) hE3⟩

/-- The metadata inventory loop keeps the invariant and the framing for an
arbitrary inventory (a Commit or CommitMeta line simply re-appends). -/
theorem export_meta_objects_inv :
    ∀ (ms : List MetaEntry) {w w' : OstreeTarWriter},
      export_meta_objects w ms = .ok w' → Inv w →
      Inv w' ∧ Frame w w' ∧ ∃ new, w'.out = w.out ++ new := by
  intro ms
  induction ms with
  | nil =>
    intro w w' h hInv
    have hw : w = w' := by simpa [export_meta_objects] using h
    subst hw
    exact ⟨hInv, Frame.refl, [], by simp⟩
  | cons m rest ih =>
    intro w w' h hInv
    unfold export_meta_objects at h
    obtain ⟨v, hv, h2⟩ := exceptBind_ok h
    obtain ⟨w1, h1, hrest⟩ := exceptBind_ok h2
    have hstep : Inv w1 ∧ Frame w w1 ∧ ∃ n1, w1.out = w.out ++ n1 := by
      rcases hm : m.objtype with _ | _ | _ | _ | _
      · rw [hm] at h1
        obtain ⟨hw1, hI, hF, _⟩ := append_CommitLike_spec (Or.inl rfl) h1 hInv
        exact ⟨hI, hF, _, by rw [hw1]⟩
      · rw [hm] at h1
        obtain ⟨hw1, hI, hF, _⟩ := append_CommitLike_spec (Or.inr rfl) h1 hInv
        exact ⟨hI, hF, _, by rw [hw1]⟩
      · rw [hm] at h1
        obtain ⟨n1, hE1, _⟩ := append_DirTree_spec h1 hInv
        exact ⟨hE1.2.1, hE1.2.2.1, n1, hE1.1⟩
      · rw [hm] at h1
        obtain ⟨n1, hE1, _⟩ := append_DirMeta_spec h1 hInv
        exact ⟨hE1.2.1, hE1.2.2.1, n1, hE1.1⟩
      · rw [hm] at h1
        exact absurd h1 (by simp [append])
    obtain ⟨hI1, hF1, n1, ho1⟩ := hstep
    obtain ⟨hI2, hF2, n2, ho2⟩ := ih hrest hI1
    exact ⟨hI2, Frame.trans hF1 hF2, n1 ++ n2,
      by rw [ho2, ho1, List.append_assoc]⟩

/-- The metadata inventory loop over a DirTree/DirMeta-only inventory
emits no commit-kind entry. -/
theorem export_meta_objects_spec :
    ∀ (ms : List MetaEntry) {w w' : OstreeTarWriter},
      export_meta_objects w ms = .ok w' → Inv w →
      (∀ m ∈ ms, m.objtype = .DirTree ∨ m.objtype = .DirMeta) →
      ∃ new, EmitsOK w w' new := by
  intro ms
  induction ms with
  | nil =>
    intro w w' h hInv hms
    have hw : w = w' := by simpa [export_meta_objects] using h
    subst hw
    exact ⟨[], EmitsOK_refl hInv⟩
  | cons m rest ih =>
    intro w w' h hInv hms
    unfold export_meta_objects at h
    obtain ⟨v, hv, h2⟩ := exceptBind_ok h
    obtain ⟨w1, h1, hrest⟩ := exceptBind_ok h2
    have hstep : ∃ n1, EmitsOK w w1 n1 := by
      rcases hms m (List.mem_cons_self _ _) with hm | hm
      · rw [hm] at h1
        obtain ⟨n1, hE1, _⟩ := append_DirTree_spec h1 hInv
        exact ⟨n1, hE1⟩
      · rw [hm] at h1
        obtain ⟨n1, hE1, _⟩ := append_DirMeta_spec h1 hInv
        exact ⟨n1, hE1⟩
    obtain ⟨n1, hE1⟩ := hstep
    obtain ⟨n2, hE2⟩ := ih hrest hE1.2.1
      (fun m2 hm2 => hms m2 (List.mem_cons_of_mem _ hm2))
    exact ⟨n1 ++ n2, EmitsOK_trans hE1 hE2⟩

/-- export_chunk: the stream opens with the format version 0 scaffold
(ExportOptions::default) and satisfies the per-kind uniqueness and
ordering invariants. -/
theorem export_chunk_spec {repo : Repo} {commit : String}
    {chunk : ChunkMapping} {out : List TarEntry}
    (h : export_chunk repo commit chunk = .ok out) :
    (∃ rest, out = scaffoldEntries 0 ++ rest) ∧
      (∀ k c, cntK 0 k c out ≤ 1) ∧ XOrder 0 repo out := by
  unfold export_chunk at h
  obtain ⟨w0, hnew, h2⟩ := exceptBind_ok h
  obtain ⟨w1, hscaf, h3⟩ := exceptBind_ok h2
  obtain ⟨w2, hwc, h4⟩ := exceptBind_ok h3
  have hout : out = w2.out := by simpa using h4.symm
  obtain ⟨hout0, hInv0, hrepo0, hopts0, hinit0, _⟩ :=
    OstreeTarWriter_new_spec hnew
  obtain ⟨n1, hE1, _, _, _, _, _, _, hno, hsc⟩ :=
    write_repo_structure_spec hscaf hInv0
  obtain ⟨n2, hE2⟩ := write_chunk_spec chunk hwc hE1.2.1
  have hv0 : fmtv w0 = 0 := by
    rw [fmtv, hopts0]
    rfl
  have hn1 : n1 = scaffoldEntries 0 := by rw [hno hinit0, hv0]
  have houtN : out = scaffoldEntries 0 ++ n2 := by
    rw [hout, hE2.1, hE1.1, hout0, List.nil_append, hn1]
  have hv1 : fmtv w2 = 0 := by
    rw [fmtv, hE2.2.2.1.2.1, hE1.2.2.1.2.1, hopts0]
    rfl
  have hrepo2 : w2.repo = repo := by
    rw [hE2.2.2.1.1, hE1.2.2.1.1, hrepo0]
  refine ⟨⟨n2, houtN⟩, ?_, ?_⟩
  · intro k c
    rcases k with t | _
    · rcases t with _ | _ | _ | _ | _
      · refine le_trans (le_of_eq (cntK_eq_zero ?_)) (by omega)
        intro e he
        rw [hout] at he
        rw [hE2.1, hE1.1] at he
        rw [isEmissionB_obj_v]
        rcases List.mem_append.mp he with he | he
        · rcases List.mem_append.mp he with he | he
          · rw [hout0] at he
            exact absurd he (List.not_mem_nil e)
          · exact (hE1.2.2.2 e he c).1
        · exact (hE2.2.2.2 e he c).1
      · refine le_trans (le_of_eq (cntK_eq_zero ?_)) (by omega)
        intro e he
        rw [hout] at he
        rw [hE2.1, hE1.1] at he
        rw [isEmissionB_obj_v]
        rcases List.mem_append.mp he with he | he
        · rcases List.mem_append.mp he with he | he
          · rw [hout0] at he
            exact absurd he (List.not_mem_nil e)
          · exact (hE1.2.2.2 e he c).2
        · exact (hE2.2.2.2 e he c).2
      · have := hE2.2.1.dt1 c
        rw [hv1, ← hout] at this
        exact this
      · have := hE2.2.1.dm1 c
        rw [hv1, ← hout] at this
        exact this
      · have := hE2.2.1.ct1 c
        rw [hv1, ← hout] at this
        exact this
    · have := hE2.2.1.xb1 c
      rw [hv1, ← hout] at this
      exact this
  · have := hE2.2.1.xorder
    rw [hv1, hrepo2, ← hout] at this
    exact this

/-- export_final_chunk: format version 1; uniqueness of the commit kinds
holds when the inventory lists only DirTree and DirMeta objects, and the
ordering invariant holds for any inventory. -/
theorem export_final_chunk_spec {repo : Repo} {cs : String}
    {chunking : Chunking} {out : List TarEntry}
    (h : export_final_chunk repo cs chunking = .ok out) :
    ((∀ m ∈ chunking.meta, m.objtype = .DirTree ∨ m.objtype = .DirMeta) →
      ∀ k c, cntK 1 k c out ≤ 1) ∧ XOrder 1 repo out := by
  unfold export_final_chunk at h
  obtain ⟨w0, hnew, h2⟩ := exceptBind_ok h
  obtain ⟨w1, hscaf, h3⟩ := exceptBind_ok h2
  obtain ⟨w2, hcmt, h4⟩ := exceptBind_ok h3
  obtain ⟨w3, hmeta, h5⟩ := exceptBind_ok h4
  obtain ⟨w4, hwc, h6⟩ := exceptBind_ok h5
  have hout : out = w4.out := by simpa using h6.symm
  obtain ⟨hout0, hInv0, hrepo0, hopts0, hinit0, _⟩ :=
    OstreeTarWriter_new_spec hnew
  obtain ⟨n1, hE1, _, _, _, _, _, _, _, _⟩ :=
    write_repo_structure_spec hscaf hInv0
  obtain ⟨n2, ho2, hInv2, hfr2, hP2, hC2⟩ :=
    append_commit_object_spec hcmt hE1.2.1
  have hImeta := export_meta_objects_inv chunking.meta hmeta hInv2
  obtain ⟨n4, hE4⟩ := write_chunk_spec chunking.remainder hwc hImeta.1
  have hv4 : fmtv w4 = 1 := by
    rw [fmtv, hE4.2.2.1.2.1, hImeta.2.1.2.1, hfr2.2.1, hE1.2.2.1.2.1, hopts0]
  have hrepo4 : w4.repo = repo := by
    rw [hE4.2.2.1.1, hImeta.2.1.1, hfr2.1, hE1.2.2.1.1, hrepo0]
  constructor
  · intro hms k c
    obtain ⟨n3, hE3⟩ := export_meta_objects_spec chunking.meta hmeta hInv2 hms
    have houtN : out = n1 ++ n2 ++ n3 ++ n4 := by
      rw [hout, hE4.1, hE3.1, ho2, hE1.1, hout0, List.nil_append]
    rcases k with t | _
    · rcases t with _ | _ | _ | _ | _
      · rw [houtN]
        simp only [cntK_append]
        have hz1 : cntK 1 (.obj .Commit) c n1 = 0 :=
          cntK_eq_zero (fun e he => by
            rw [isEmissionB_obj_v]
            exact (hE1.2.2.2 e he c).1)
        have hz3 : cntK 1 (.obj .Commit) c n3 = 0 :=
          cntK_eq_zero (fun e he => by
            rw [isEmissionB_obj_v]
            exact (hE3.2.2.2 e he c).1)
        have hz4 : cntK 1 (.obj .Commit) c n4 = 0 :=
          cntK_eq_zero (fun e he => by
            rw [isEmissionB_obj_v]
            exact (hE4.2.2.2 e he c).1)
        have hc2 : cntK 1 (.obj .Commit) c n2 ≤ 1 := by
          rw [cntK_obj_v 1 (fmtv w1)]
          exact hC2 (.obj .Commit) c
        omega
      · rw [houtN]
        simp only [cntK_append]
        have hz1 : cntK 1 (.obj .CommitMeta) c n1 = 0 :=
          cntK_eq_zero (fun e he => by
            rw [isEmissionB_obj_v]
            exact (hE1.2.2.2 e he c).2)
        have hz3 : cntK 1 (.obj .CommitMeta) c n3 = 0 :=
          cntK_eq_zero (fun e he => by
            rw [isEmissionB_obj_v]
            exact (hE3.2.2.2 e he c).2)
        have hz4 : cntK 1 (.obj .CommitMeta) c n4 = 0 :=
          cntK_eq_zero (fun e he => by
            rw [isEmissionB_obj_v]
            exact (hE4.2.2.2 e he c).2)
        have hc2 : cntK 1 (.obj .CommitMeta) c n2 ≤ 1 := by
          rw [cntK_obj_v 1 (fmtv w1)]
          exact hC2 (.obj .CommitMeta) c
        omega
      · have := hE4.2.1.dt1 c
        rw [hv4, ← hout] at this
        exact this
      · have := hE4.2.1.dm1 c
        rw [hv4, ← hout] at this
        exact this
      · have := hE4.2.1.ct1 c
        rw [hv4, ← hout] at this
        exact this
    · have := hE4.2.1.xb1 c
      rw [hv4, ← hout] at this
      exact this
  · have := hE4.2.1.xorder
    rw [hv4, hrepo4, ← hout] at this
    exact this

/-! ### Totality of the v1 path mapping -/

theorem parseComponents_usretc :
    parseComponents "usr/etc" = [.normal "usr", .normal "etc"] := by decide

theorem map_path_v1_total (p : String) : (map_path_v1 p).isSome = true := by
  unfold map_path_v1
  by_cases h : pathStartsWith p "usr/etc"
  · rw [if_pos h]
    have h2 : pathStartsWith p "usr/" = true := by
      unfold pathStartsWith at h ⊢
      rw [List.isPrefixOf_iff_prefix] at h ⊢
      rw [parseComponents_usretc] at h
      have hq : parseComponents "usr/" = [.normal "usr"] := by decide
      rw [hq]
      exact List.IsPrefix.trans ⟨[.normal "etc"], rfl⟩ h
    unfold pathStrip
    rw [if_pos h2]
    rfl
  · rw [if_neg h]
    rfl

theorem path_for_tar_v1_total (p : String) :
    (path_for_tar_v1 p).isSome = true := by
  unfold path_for_tar_v1
  exact map_path_v1_total _

theorem startsDot_not_root {p : String} (h : strStartsWith p "./" = true) :
    strStartsWith p "/" = false := by
  unfold strStartsWith at h ⊢
  rw [List.isPrefixOf_iff_prefix] at h
  obtain ⟨t, ht⟩ := h
  have hd : p.data = '.' :: '/' :: t := ht.symm
  rw [hd]
  show List.isPrefixOf ['/'] ('.' :: '/' :: t) = false
  simp [List.isPrefixOf]

theorem pathStartsWith_usretc_of_front {p : String}
    (hp : strStartsWith p "/" = true ∨ strStartsWith p "./" = true) :
    pathStartsWith p "usr/etc" = false := by
  unfold pathStartsWith
  rw [parseComponents_usretc]
  have hshape : ∃ rest, parseComponents p = .rootDir :: rest ∨
      parseComponents p = .curDir :: rest := by
    unfold parseComponents
    rcases hp with hp | hp
    · rw [hp]
      exact ⟨_, Or.inl rfl⟩
    · rw [startsDot_not_root hp, hp]
      simp
  obtain ⟨rest, hr | hr⟩ := hshape <;> rw [hr] <;> rfl

theorem map_path_v1_front {p : String}
    (hp : strStartsWith p "/" = true ∨ strStartsWith p "./" = true) :
    map_path_v1 p = some p := by
  unfold map_path_v1
  rw [pathStartsWith_usretc_of_front hp]
  simp

/-! ### Locating the commit entry in the reinjector -/

theorem reinject_find_commit_none : ∀ (l : List TarEntry),
    (∀ e ∈ l, ¬(e.header.entryType = .Regular ∧
      strEndsWith e.path ".commit" = true)) →
    reinject_find_commit l = (l, none) := by
  intro l
  induction l with
  | nil => intro _; rfl
  | cons e rest ih =>
    intro hl
    unfold reinject_find_commit
    rw [if_neg (hl e (List.mem_cons_self _ _))]
    rw [ih (fun e2 he2 => hl e2 (List.mem_cons_of_mem _ he2))]

theorem reinject_find_commit_eq : ∀ (pre : List TarEntry)
    (ce : TarEntry) (tail : List TarEntry),
    (∀ e ∈ pre, ¬(e.header.entryType = .Regular ∧
      strEndsWith e.path ".commit" = true)) →
    ce.header.entryType = .Regular → strEndsWith ce.path ".commit" = true →
    reinject_find_commit (pre ++ ce :: tail) = (pre, some (ce, tail)) := by
  intro pre
  induction pre with
  | nil =>
    intro ce tail _ h1 h2
    rw [List.nil_append]
    unfold reinject_find_commit
    rw [if_pos ⟨h1, h2⟩]
  | cons e rest ih =>
    intro ce tail hpre h1 h2
    rw [List.cons_append]
    unfold reinject_find_commit
    rw [if_neg (hpre e (List.mem_cons_self _ _))]
    rw [ih ce tail (fun e2 he2 => hpre e2 (List.mem_cons_of_mem _ he2)) h1 h2]

/-! ### Remaining helpers for the claim theorems -/

theorem tRepo_wf : RepoWF tRepo := by
  intro cs dt h
  by_cases hc : cs = "d7"
  · subst hc
    have hdt : dt = tTree := by
      have h2 : some tTree = some dt := by
        simpa [tRepo] using h
      injection h2 with h3
      exact h3.symm
    subst hdt
    refine ⟨?_, ?_⟩
    · intro p hp
      simp only [tTree, List.mem_singleton] at hp
      subst hp
      decide
    · intro p hp
      simp [tTree] at hp
  · have h2 : tRepo.load_variant_dirtree cs = none := by simp [tRepo, hc]
    rw [h2] at h
    exact absurd h (by simp)

/-- append_xattrs always succeeds for an allowed format version. -/
theorem append_xattrs_ok (w : OstreeTarWriter) (cs : String) (x : List Nat)
    (hv : fmtv w ≤ 1) : ∃ r, append_xattrs w cs x = .ok r := by
  unfold append_xattrs
  by_cases h0 : x.isEmpty ∧ w.options.format_version = 0
  · rw [if_pos h0]
    exact ⟨_, rfl⟩
  · rw [if_neg h0]
    dsimp only []
    by_cases hv0 : w.options.format_version = 0
    · rw [if_pos hv0]
      exact ⟨_, rfl⟩
    · rw [if_neg hv0]
      have hv1 : w.options.format_version = 1 := by
        have := hv
        unfold fmtv at this
        omega
      rw [if_pos hv1]
      exact ⟨_, rfl⟩

/-! ### The claims -/

/-- C1: export_chunk is claimed to produce format version 1, but the
writer is built with ExportOptions::default(), i.e. format version 0: the
stream opens with the v0 scaffold, which includes the
sysroot/ostree/repo/xattrs directory that the v1 layout omits. -/
theorem C1_export_chunk_is_v0 :
    (∀ (repo : Repo) (commit : String) (chunk : ChunkMapping)
      (out : List TarEntry), export_chunk repo commit chunk = .ok out →
      ∃ rest, out = scaffoldEntries 0 ++ rest ∧
        defaultDirEntry (OSTREEDIR ++ "/repo/xattrs") ∈ out) ∧
      defaultDirEntry (OSTREEDIR ++ "/repo/xattrs") ∉ scaffoldEntries 1 := by
  constructor
  · intro repo commit chunk out h
    obtain ⟨⟨rest, hr⟩, _, _⟩ := export_chunk_spec h
    refine ⟨rest, hr, ?_⟩
    rw [hr]
    exact List.mem_append_left _ (by decide)
  · decide

/-- C1 witness: the sample single-chunk export starts with the v0 scaffold
and contains the v0-only xattrs directory. -/
theorem C1_export_chunk_is_v0_witness :
    ∃ rest, tOutChunk = scaffoldEntries 0 ++ rest ∧
      defaultDirEntry (OSTREEDIR ++ "/repo/xattrs") ∈ tOutChunk :=
  C1_export_chunk_is_v0.1 tRepo "c0" [] tOutChunk (by rfl)

/-- C2 counterexample: the sample v1 export stream contains a hardlink
(tar Link) entry carrying uid 42 and gid 42 — content hardlinks reuse the
content object's header, so they do not carry root ownership. -/
theorem C2_hardlink_owner_counterexample :
    ∃ e ∈ tOutV1, e.header.entryType = .Link ∧ e.header.uid = 42 ∧
      e.header.gid = 42 := by decide

/-- C2 (amended): scaffold entries and default hardlink entries carry
uid 0 and gid 0, while a content hardlink inherits the uid and gid of the
caller-supplied (content) header. -/
theorem C2_owner_invariants :
    (∀ v, ∀ e ∈ scaffoldEntries v, e.header.uid = 0 ∧ e.header.gid = 0) ∧
    (∀ p t, (defaultHardlinkEntry p t).header.uid = 0 ∧
      (defaultHardlinkEntry p t).header.gid = 0 ∧
      (defaultHardlinkEntry p t).header.entryType = .Link) ∧
    (∀ (w : OstreeTarWriter) (srcpath : String) (hd : Header) (dest : String),
      (append_content_hardlink w srcpath hd dest).out =
        w.out ++ [linkEntryOf srcpath hd dest] ∧
      (linkEntryOf srcpath hd dest).header.uid = hd.uid ∧
      (linkEntryOf srcpath hd dest).header.gid = hd.gid) := by
  refine ⟨?_, fun p t => ⟨rfl, rfl, rfl⟩, fun w s hd d => ⟨rfl, rfl, rfl⟩⟩
  intro v e he
  unfold scaffoldEntries at he
  rcases List.mem_append.mp he with he | he
  · obtain ⟨p, _, hp⟩ := List.mem_map.mp he
    rw [← hp]
    exact ⟨rfl, rfl⟩
  · simp only [List.mem_singleton] at he
    subst he
    exact ⟨rfl, rfl⟩

/-- C2 witness: the first scaffold entry is root-owned. -/
theorem C2_owner_invariants_witness :
    (defaultDirEntry "sysroot").header.uid = 0 ∧
      (defaultDirEntry "sysroot").header.gid = 0 :=
  C2_owner_invariants.1 1 (defaultDirEntry "sysroot") (by decide)

/-- C3 counterexample: Commit and CommitMeta objects are not deduplicated,
so a final chunk whose metadata inventory lists the Commit object emits it
twice — once from append_commit_object and once from the inventory. -/
theorem C3_duplicate_commit_counterexample :
    cntK 1 (.obj .Commit) "c0" tOutFinalDup = 2 := by decide

/-- C3 (amended): each distinct (object type, checksum) pair is emitted at
most once in a full export, a single chunk, and a final chunk whose
metadata inventory is restricted to DirTree and DirMeta objects (without
that restriction the property fails, see the counterexample). -/
theorem C3_object_uniqueness :
    (∀ (repo : Repo) (rev : String) (options : Option ExportOptions)
      (fuel : Nat) (out : List TarEntry),
      export_commit repo rev options fuel = .ok out →
      ∀ k c, cntK (options.getD ExportOptions.default).format_version
        k c out ≤ 1) ∧
    (∀ (repo : Repo) (commit : String) (chunk : ChunkMapping)
      (out : List TarEntry), export_chunk repo commit chunk = .ok out →
      ∀ k c, cntK 0 k c out ≤ 1) ∧
    (∀ (repo : Repo) (cs : String) (chunking : Chunking)
      (out : List TarEntry), export_final_chunk repo cs chunking = .ok out →
      (∀ m ∈ chunking.meta, m.objtype = .DirTree ∨ m.objtype = .DirMeta) →
      ∀ k c, cntK 1 k c out ≤ 1) := by
  refine ⟨?_, ?_, ?_⟩
  · intro repo rev options fuel out h k c
    obtain ⟨h1, h2, _, _⟩ := export_commit_spec h
    rcases k with t | _
    · exact h1 t c
    · exact h2 c
  · intro repo commit chunk out h k c
    exact (export_chunk_spec h).2.1 k c
  · intro repo cs chunking out h hms k c
    exact (export_final_chunk_spec h).1 hms k c

/-- C3 witness: the sample final chunk with an empty inventory emits the
Commit object at most once. -/
theorem C3_object_uniqueness_witness :
    cntK 1 (.obj .Commit) "c0" tOutFinal ≤ 1 :=
  C3_object_uniqueness.2.2 tRepo "c0" ⟨[], []⟩ tOutFinal (by rfl)
    (fun m hm => absurd hm (List.not_mem_nil m)) (.obj .Commit) "c0"

/-- C4: in every stream a driver produces, wherever a content object whose
xattrs are due (non-empty blob in v0, any blob in v1) sits, its xattrs
blob entry and its per-object xattrs link entry occur strictly earlier. -/
theorem C4_xattrs_before_content :
    (∀ (repo : Repo) (rev : String) (options : Option ExportOptions)
      (fuel : Nat) (out : List TarEntry),
      export_commit repo rev options fuel = .ok out →
      XOrder (options.getD ExportOptions.default).format_version repo out) ∧
    (∀ (repo : Repo) (commit : String) (chunk : ChunkMapping)
      (out : List TarEntry), export_chunk repo commit chunk = .ok out →
      XOrder 0 repo out) ∧
    (∀ (repo : Repo) (cs : String) (chunking : Chunking)
      (out : List TarEntry), export_final_chunk repo cs chunking = .ok out →
      XOrder 1 repo out) :=
  ⟨fun repo rev options fuel out h => (export_commit_spec h).2.2.1,
    fun repo commit chunk out h => (export_chunk_spec h).2.2,
    fun repo cs chunking out h => (export_final_chunk_spec h).2⟩

/-- C4 witness: the ordering invariant of the sample final chunk. -/
theorem C4_xattrs_before_content_witness : XOrder 1 tRepo tOutFinal :=
  C4_xattrs_before_content.2.2 tRepo "c0" ⟨[], []⟩ tOutFinal (by rfl)

/-- C5 counterexample: when the entry after the commit entry has a path
that does not parse as a metadata object, the reinjector fails instead of
copying the entry. -/
theorem C5_copy_error_counterexample :
    reinject_detached_metadata [c5commitEntry, c5junkEntry] none =
      .error "Invalid object path foo" := by rfl

/-- C5 (amended, over the spec-modelled parse_metadata_entry): the
reinjector errors when no commit entry exists and when nothing follows the
commit entry; the entry after the commit entry is dropped when it parses
as CommitMeta, copied when it parses as another object type, and — the
divergence from the claim — the whole operation fails when its path does
not parse at all. -/
theorem C5_reinjector_behaviour :
    (∀ (src : List TarEntry) (buf : Option (List Nat)),
      (∀ e ∈ src, ¬(e.header.entryType = .Regular ∧
        strEndsWith e.path ".commit" = true)) →
      reinject_detached_metadata src buf = .error "Missing commit object") ∧
    (∀ (pre : List TarEntry) (ce : TarEntry) (buf : Option (List Nat))
      (cs : String),
      (∀ e ∈ pre, ¬(e.header.entryType = .Regular ∧
        strEndsWith e.path ".commit" = true)) →
      ce.header.entryType = .Regular → strEndsWith ce.path ".commit" = true →
      parse_metadata_entry ce.path = .ok (cs, .Commit) →
      reinject_detached_metadata (pre ++ [ce]) buf =
        .error "Expected metadata object after commit") ∧
    (∀ (pre : List TarEntry) (ce next : TarEntry) (rest : List TarEntry)
      (buf : Option (List Nat)) (cs cs2 : String),
      (∀ e ∈ pre, ¬(e.header.entryType = .Regular ∧
        strEndsWith e.path ".commit" = true)) →
      ce.header.entryType = .Regular → strEndsWith ce.path ".commit" = true →
      parse_metadata_entry ce.path = .ok (cs, .Commit) →
      parse_metadata_entry next.path = .ok (cs2, .CommitMeta) →
      reinject_detached_metadata (pre ++ ce :: next :: rest) buf =
        .ok (reinjectDest pre ce buf cs ++ rest)) ∧
    (∀ (pre : List TarEntry) (ce next : TarEntry) (rest : List TarEntry)
      (buf : Option (List Nat)) (cs cs2 : String) (t : ObjectType),
      (∀ e ∈ pre, ¬(e.header.entryType = .Regular ∧
        strEndsWith e.path ".commit" = true)) →
      ce.header.entryType = .Regular → strEndsWith ce.path ".commit" = true →
      parse_metadata_entry ce.path = .ok (cs, .Commit) →
      parse_metadata_entry next.path = .ok (cs2, t) → t ≠ .CommitMeta →
      reinject_detached_metadata (pre ++ ce :: next :: rest) buf =
        .ok (reinjectDest pre ce buf cs ++ next :: rest)) ∧
    (∀ (pre : List TarEntry) (ce next : TarEntry) (rest : List TarEntry)
      (buf : Option (List Nat)) (cs : String) (msg : String),
      (∀ e ∈ pre, ¬(e.header.entryType = .Regular ∧
        strEndsWith e.path ".commit" = true)) →
      ce.header.entryType = .Regular → strEndsWith ce.path ".commit" = true →
      parse_metadata_entry ce.path = .ok (cs, .Commit) →
      parse_metadata_entry next.path = .error msg →
      reinject_detached_metadata (pre ++ ce :: next :: rest) buf =
        .error msg) := by
  refine ⟨?_, ?_, ?_, ?_, ?_⟩
  · intro src buf hsrc
    unfold reinject_detached_metadata
    rw [reinject_find_commit_none src hsrc]
    rfl
  · intro pre ce buf cs hpre h1 h2 hp
    unfold reinject_detached_metadata
    rw [reinject_find_commit_eq pre ce [] hpre h1 h2]
    simp only [ofOption, Bind.bind, Except.bind]
    rw [hp]
    rcases buf with _ | b <;> simp
  · intro pre ce next rest buf cs cs2 hpre h1 h2 hp hq
    unfold reinject_detached_metadata
    rw [reinject_find_commit_eq pre ce (next :: rest) hpre h1 h2]
    simp only [ofOption, Bind.bind, Except.bind]
    rw [hp]
    simp only []
    rw [hq]
    rcases buf with _ | b <;> simp [reinjectDest]
  · intro pre ce next rest buf cs cs2 t hpre h1 h2 hp hq ht
    unfold reinject_detached_metadata
    rw [reinject_find_commit_eq pre ce (next :: rest) hpre h1 h2]
    simp only [ofOption, Bind.bind, Except.bind]
    rw [hp]
    simp only []
    rw [hq]
    rcases buf with _ | b <;> simp [reinjectDest, ht]
  · intro pre ce next rest buf cs msg hpre h1 h2 hp hq
    unfold reinject_detached_metadata
    rw [reinject_find_commit_eq pre ce (next :: rest) hpre h1 h2]
    simp only [ofOption, Bind.bind, Except.bind]
    rw [hp]
    simp only []
    rw [hq]
    rcases buf with _ | b <;> simp

/-- C5 witness: a DirTree entry after the commit entry is copied. -/
theorem C5_reinjector_behaviour_witness :
    reinject_detached_metadata [c5commitEntry, c5treeEntry] none =
      .ok (reinjectDest [] c5commitEntry none c5sum ++ c5treeEntry :: []) :=
  C5_reinjector_behaviour.2.2.2.1 [] c5commitEntry c5treeEntry [] none
    c5sum c5sum .DirTree (fun e he => absurd he (List.not_mem_nil e))
    (by rfl) (by rfl) (by rfl) (by rfl) (by decide)

/-- C6 counterexample: in the sample v1 full export the root directory is
emitted at "./" and the content hardlink at "./a" — rendered paths keep
the ./ prefix even in format version 1. -/
theorem C6_dot_prefix_counterexample :
    (∃ e ∈ tOutV1, e.header.entryType = .Directory ∧ e.path = "./") ∧
    (∃ e ∈ tOutV1, e.header.entryType = .Link ∧ e.path = "./a" ∧
      strStartsWith e.path "./" = true) := by decide

/-- C6 (amended): in a v1 full export over a well-formed repository every
emitted path sits under "./" or under "sysroot" — rendered checked-out
paths carry the ./ prefix (write_commit passes TAR_PATH_PREFIX_V0
unconditionally), they are not bare. -/
theorem C6_full_export_paths :
    ∀ (repo : Repo) (rev : String) (fuel : Nat) (out : List TarEntry),
      export_commit repo rev (some ⟨1⟩) fuel = .ok out →
      RepoWF repo → ∀ e ∈ out, PathOK e := by
  intro repo rev fuel out h hwf
  exact (export_commit_spec h).2.2.2 hwf

/-- C6 witness: the sample v1 export's scaffold root is under sysroot. -/
theorem C6_full_export_paths_witness : PathOK (defaultDirEntry "sysroot") :=
  C6_full_export_paths tRepo "r" 9 tOutV1 (by rfl) tRepo_wf
    (defaultDirEntry "sysroot") (by decide)

/-- C7: map_path rewrites a ./usr/etc prefix to ./etc and is the identity
elsewhere; map_path_v1 strips the leading usr/ from a usr/etc path and is
the identity elsewhere; including the four unit cases. -/
theorem C7_map_path_spec :
    (∀ p r, pathStrip "./usr/etc" p = some r → map_path p = pathJoin "./etc" r) ∧
    (∀ p, pathStrip "./usr/etc" p = none → map_path p = p) ∧
    map_path "/" = "/" ∧
    map_path "./usr/etc/blah" = "./etc/blah" ∧
    (∀ p r, pathStrip "usr/" p = some r → pathStartsWith p "usr/etc" = true →
      map_path_v1 p = some r) ∧
    (∀ p, pathStartsWith p "usr/etc" = false → map_path_v1 p = some p) ∧
    map_path_v1 "usr/etc/foo" = some "etc/foo" ∧
    map_path_v1 "usr/bin" = some "usr/bin" := by
  refine ⟨?_, ?_, by decide, by decide, ?_, ?_, by decide, by decide⟩
  · intro p r h
    unfold map_path
    rw [h]
  · intro p h
    unfold map_path
    rw [h]
  · intro p r h hs
    unfold map_path_v1
    rw [if_pos hs, h]
  · intro p h
    unfold map_path_v1
    rw [h]
    simp

/-- C7 witness: the identity branch of map_path_v1 on a non-usr path. -/
theorem C7_map_path_spec_witness : map_path_v1 "a/b" = some "a/b" :=
  C7_map_path_spec.2.2.2.2.2.1 "a/b" (by decide)

/-- C8: the scaffold emitter is idempotent within a run — the first call
emits the scaffold and config, every later call is a no-op, so two calls
produce exactly the bytes of one. -/
theorem C8_scaffold_idempotent :
    ∀ (w w' : OstreeTarWriter), write_repo_structure w = .ok w' →
      write_repo_structure w' = .ok w' ∧
      (w.wrote_initdirs = false → w'.out = w.out ++ scaffoldEntries (fmtv w)) ∧
      (w.wrote_initdirs = true → w' = w) := by
  intro w w' h
  by_cases hinit : w.wrote_initdirs
  · have hw : w' = w := by
      unfold write_repo_structure at h
      rw [if_pos hinit] at h
      simpa using h.symm
    subst hw
    refine ⟨?_, fun hf => absurd hinit (by simp [hf]), fun _ => rfl⟩
    unfold write_repo_structure
    rw [if_pos hinit]
  · unfold write_repo_structure at h
    rw [if_neg hinit] at h
    rw [foldl_append_default_dir] at h
    have hinit2 : w.wrote_initdirs = false := by
      simpa using hinit
    dsimp only [] at h
    split at h
    · rename_i hv
      injection h with h2
      have hwi : w'.wrote_initdirs = true := by rw [← h2]
      refine ⟨?_, fun _ => ?_, fun ht => absurd ht (by simp [hinit2])⟩
      · unfold write_repo_structure
        rw [if_pos hwi]
      · rw [← h2]
        show (w.out ++
            (scaffoldDirPaths w.options.format_version).map defaultDirEntry) ++
          [defaultDataEntry (configPath 0) REPO_CONFIG_BYTES] =
          w.out ++ scaffoldEntries (fmtv w)
        rw [scaffoldEntries, fmtv, hv, List.append_assoc]
    · rename_i hv
      injection h with h2
      have hwi : w'.wrote_initdirs = true := by rw [← h2]
      refine ⟨?_, fun _ => ?_, fun ht => absurd ht (by simp [hinit2])⟩
      · unfold write_repo_structure
        rw [if_pos hwi]
      · rw [← h2]
        show (w.out ++
            (scaffoldDirPaths w.options.format_version).map defaultDirEntry) ++
          [defaultDataEntry (configPath 1) REPO_CONFIG_BYTES] =
          w.out ++ scaffoldEntries (fmtv w)
        rw [scaffoldEntries, fmtv, hv, List.append_assoc]
    · exact absurd h (by simp)

/-- C8 witness: the sample writer's second scaffold call is a no-op. -/
theorem C8_scaffold_idempotent_witness :
    write_repo_structure tW1 = .ok tW1 ∧
      (tW0.wrote_initdirs = false →
        tW1.out = tW0.out ++ scaffoldEntries (fmtv tW0)) ∧
      (tW0.wrote_initdirs = true → tW1 = tW0) :=
  C8_scaffold_idempotent tW0 tW1 (by rfl)

/-- C9: append_content fails when metadata or xattrs are missing, when a
symlink has no stored target, and when the object is neither a regular
file nor a symlink; on a deduplicated checksum it returns the object path
and a size-0 header template without touching the writer. -/
theorem C9_append_content_errors :
    (∀ (w : OstreeTarWriter) (cs : String) i x,
      w.repo.load_file cs = (i, none, x) →
      append_content w cs = .error ("Missing metadata for object " ++ cs)) ∧
    (∀ (w : OstreeTarWriter) (cs : String) i meta,
      w.repo.load_file cs = (i, some meta, none) →
      append_content w cs = .error ("Missing xattrs for object " ++ cs)) ∧
    (∀ (w : OstreeTarWriter) (cs : String) i meta xa,
      w.repo.load_file cs = (i, some meta, some xa) →
      cs ∈ w.wrote_content →
      append_content w cs = .ok (w, object_path .File cs,
        { Header.new_gnu with
          uid := meta.uid
          gid := meta.gid
          mode := filter_mode w meta.mode
          size := 0 })) ∧
    (∀ (w : OstreeTarWriter) (cs : String) meta xa,
      w.repo.load_file cs = (none, some meta, some xa) →
      cs ∉ w.wrote_content → fmtv w ≤ 1 →
      meta.fileType = .SymbolicLink → meta.symlinkTarget = none →
      append_content w cs = .error "Missing symlink target") ∧
    (∀ (w : OstreeTarWriter) (cs : String) body meta xa,
      w.repo.load_file cs = (some body, some meta, some xa) →
      cs ∉ w.wrote_content → fmtv w ≤ 1 → meta.fileType ≠ .Regular →
      append_content w cs = .error "file type mismatch: expected regular") ∧
    (∀ (w : OstreeTarWriter) (cs : String) meta xa,
      w.repo.load_file cs = (none, some meta, some xa) →
      cs ∉ w.wrote_content → fmtv w ≤ 1 → meta.fileType ≠ .SymbolicLink →
      append_content w cs = .error "file type mismatch: expected symlink") := by
  refine ⟨?_, ?_, ?_, ?_, ?_, ?_⟩
  · intro w cs i x hL
    unfold append_content
    rw [hL]
  · intro w cs i meta hL
    unfold append_content
    rw [hL]
  · intro w cs i meta xa hL hmem
    unfold append_content
    rw [hL]
    dsimp only []
    rw [if_pos hmem]
  · intro w cs meta xa hL hmem hv hft hst
    unfold append_content
    rw [hL]
    dsimp only []
    rw [if_neg hmem]
    obtain ⟨r, hx⟩ := append_xattrs_ok
      { w with wrote_content := cs :: w.wrote_content } cs xa hv
    rcases r with ⟨w2, b2⟩
    rw [hx]
    simp only [Bind.bind, Except.bind]
    rw [if_pos hft, hst]
  · intro w cs body meta xa hL hmem hv hft
    unfold append_content
    rw [hL]
    dsimp only []
    rw [if_neg hmem]
    obtain ⟨r, hx⟩ := append_xattrs_ok
      { w with wrote_content := cs :: w.wrote_content } cs xa hv
    rcases r with ⟨w2, b2⟩
    rw [hx]
    simp only [Bind.bind, Except.bind]
    rw [if_neg hft]
  · intro w cs meta xa hL hmem hv hft
    unfold append_content
    rw [hL]
    dsimp only []
    rw [if_neg hmem]
    obtain ⟨r, hx⟩ := append_xattrs_ok
      { w with wrote_content := cs :: w.wrote_content } cs xa hv
    rcases r with ⟨w2, b2⟩
    rw [hx]
    simp only [Bind.bind, Except.bind]
    rw [if_neg hft]

/-- C9 witness: loading an absent object fails with the metadata error. -/
theorem C9_append_content_errors_witness :
    append_content tW0 "zz" = .error ("Missing metadata for object " ++ "zz") :=
  C9_append_content_errors.1 tW0 "zz" none none (by rfl)

/-- C10: map_path_v1 is total on every path — the unwrap behind the
usr/etc test cannot fail, and paths violating the documented precondition
(absolute or dot-prefixed) are returned unchanged; path_for_tar_v1 is
total as well. -/
theorem C10_v1_mapping_total :
    (∀ p, (map_path_v1 p).isSome = true) ∧
    (∀ p, strStartsWith p "/" = true ∨ strStartsWith p "./" = true →
      map_path_v1 p = some p) ∧
    (∀ p, (path_for_tar_v1 p).isSome = true) :=
  ⟨map_path_v1_total, fun p hp => map_path_v1_front hp, path_for_tar_v1_total⟩

/-- C10 witness: an absolute path is mapped to itself. -/
theorem C10_v1_mapping_total_witness : map_path_v1 "/x" = some "/x" :=
  C10_v1_mapping_total.2.1 "/x" (Or.inl (by decide))

end OstreeTar
